import Mathlib

/-!
# Verification of `all_project_analyzer.py`

A shallow embedding of the static project analyzer
(`all_project_analyzer.py` of the `all_python_tools` repository) and
proofs about it.  The embedding covers:

* the scope-aware `SymbolVisitor` (definitions, used symbols, imports),
* the import-path resolver `_resolve_import_path`,
* the `ProjectAnalyzer` pipeline (`_analyze_file`, `_collect_all_defined_symbols`,
  `_find_undefined_symbols`, `_find_unused_symbols`,
  `_detect_circular_imports`, `_calculate_coupling`, `_build_final_report`).

Modelling conventions:

* Filesystem paths are lists of segments (`FPath := List String`); the
  filesystem is the list of existing paths (`os.path.exists p ↔ p ∈ fs`).
  `os.path.normpath` is the identity on these already-normal paths, and
  `os.path.abspath(os.path.join(d, '..' * k))` is dropping `k` final
  segments.  The `startswith(project_root)` test of the source stays a
  *string* prefix test on the rendered paths.
* Python `set`s of strings/paths are lists kept duplicate-free by
  insert-if-absent; only membership and size are consumed downstream.
* Python `sorted` on lists of strings is `List.insertionSort` with the
  code-point lexicographic order `strLe` (Python compares strings by
  code points).
* Python dictionaries are association lists; `d[k] = v` on an existing
  key is in-place update, on a fresh key an append.
-/

/-! ## String primitives (Python semantics) -/

/-- Python `s.split('.')`: splitting the empty string yields `[""]`,
    and every dot separates (no collapsing). -/
def splitDots (s : String) : List String :=
  go s.data []
where
  /-- Accumulates the current (reversed) chunk; a dot flushes it. -/
  go : List Char → List Char → List String
    | [], acc => [String.mk acc.reverse]
    | c :: cs, acc => if c = '.' then String.mk acc.reverse :: go cs [] else go cs (c :: acc)

/-- Python `name.startswith('__')`. -/
def startsWithDunder (s : String) : Bool :=
  match s.data with
  | '_' :: '_' :: _ => true
  | _ => false

/-- Python string `<=` : code-point lexicographic order on the characters. -/
def charListLe : List Char → List Char → Bool
  | [], _ => true
  | _ :: _, [] => false
  | a :: as, b :: bs =>
    if a.toNat < b.toNat then true
    else if b.toNat < a.toNat then false
    else charListLe as bs

/-- Python `<=` on strings (used through `sorted`). -/
def strLe (a b : String) : Bool :=
  charListLe a.data b.data

theorem charListLe_total : ∀ a b, charListLe a b = true ∨ charListLe b a = true := by
  intro a
  induction a with
  | nil => intro b; left; rfl
  | cons x xs ih =>
    intro b
    cases b with
    | nil => right; rfl
    | cons y ys =>
      by_cases h1 : x.toNat < y.toNat
      · left; simp [charListLe, h1]
      · by_cases h2 : y.toNat < x.toNat
        · right; simp [charListLe, h1, h2]
        · have hxy := ih ys
          rcases hxy with h | h
          · left; simp [charListLe, h1, h2, h]
          · right; simp [charListLe, h1, h2, h]

theorem charListLe_antisymm : ∀ a b, charListLe a b = true → charListLe b a = true → a = b := by
  intro a
  induction a with
  | nil =>
    intro b _ hba
    cases b with
    | nil => rfl
    | cons y ys => simp [charListLe] at hba
  | cons x xs ih =>
    intro b hab hba
    cases b with
    | nil => simp [charListLe] at hab
    | cons y ys =>
      by_cases h1 : x.toNat < y.toNat
      · simp [charListLe, h1, Nat.lt_asymm h1] at hba
      · by_cases h2 : y.toNat < x.toNat
        · simp [charListLe, h1, h2] at hab
        · have hnat : x.toNat = y.toNat := by omega
          have hxy : x = y := Char.eq_of_val_eq (UInt32.toNat.inj hnat)
          simp [charListLe, h1, h2] at hab hba
          rw [hxy, ih ys hab hba]

theorem charListLe_trans : ∀ a b c, charListLe a b = true → charListLe b c = true →
    charListLe a c = true := by
  intro a
  induction a with
  | nil => intro b c _ _; rfl
  | cons x xs ih =>
    intro b c hab hbc
    cases b with
    | nil => simp [charListLe] at hab
    | cons y ys =>
      cases c with
      | nil => simp [charListLe] at hbc
      | cons z zs =>
        by_cases hxy : x.toNat < y.toNat
        · by_cases hyz : y.toNat < z.toNat
          · simp [charListLe, Nat.lt_trans hxy hyz]
          · by_cases hzy : z.toNat < y.toNat
            · simp [charListLe, hyz, hzy] at hbc
            · have : y.toNat = z.toNat := by omega
              simp [charListLe, this ▸ hxy]
        · by_cases hyx : y.toNat < x.toNat
          · simp [charListLe, hxy, hyx] at hab
          · have hxyeq : x.toNat = y.toNat := by omega
            simp [charListLe, hxy, hyx] at hab
            by_cases hyz : y.toNat < z.toNat
            · simp [charListLe, hxyeq ▸ hyz]
            · by_cases hzy : z.toNat < y.toNat
              · simp [charListLe, hyz, hzy] at hbc
              · simp [charListLe, hyz, hzy] at hbc
                have h1 : ¬ x.toNat < z.toNat := by omega
                have h2 : ¬ z.toNat < x.toNat := by omega
                simp [charListLe, h1, h2, ih ys zs hab hbc]

/-- The proposition form of `strLe`, used with `List.insertionSort`. -/
def StrLeP (a b : String) : Prop := strLe a b = true

instance : DecidableRel StrLeP := fun a b => by
  unfold StrLeP; infer_instance

instance : IsTotal String StrLeP :=
  ⟨fun a b => charListLe_total a.data b.data⟩

instance : IsTrans String StrLeP :=
  ⟨fun a b c => charListLe_trans a.data b.data c.data⟩

instance : IsAntisymm String StrLeP :=
  ⟨fun a b h1 h2 => by
    have h := charListLe_antisymm a.data b.data h1 h2
    cases a; cases b; exact congrArg String.mk h⟩

/-- Python `sorted` on a list of strings. -/
def pySorted (l : List String) : List String :=
  List.insertionSort StrLeP l

/-! ## Paths -/

/-- A filesystem path, as its list of segments. -/
abbrev FPath := List String

/-- The filesystem: the list of paths that exist (`os.path.exists`). -/
abbrev Fs := List FPath

/-- `base + ext` where `ext` starts with no separator (e.g. `'.py'`):
    string concatenation onto the final segment. -/
def withSuffix : FPath → String → FPath
  | [], suffix => [suffix]
  | [x], suffix => [x ++ suffix]
  | x :: y :: rest, suffix => x :: withSuffix (y :: rest) suffix

theorem withSuffix_append_singleton (l : List String) (a suffix : String) :
    withSuffix (l ++ [a]) suffix = l ++ [a ++ suffix] := by
  induction l with
  | nil => rfl
  | cons x xs ih =>
    cases xs with
    | nil => rfl
    | cons y ys => simpa [withSuffix] using ih

/-- Render a path with `/` separators. -/
def pathToString : FPath → String
  | [] => ""
  | [x] => x
  | x :: y :: rest => x ++ "/" ++ pathToString (y :: rest)

/-- `os.path.relpath(p, root)` for a `p` lying under `root`, rendered with
    `/` separators, as the analyzer uses for its file keys. -/
def relPathStr (root p : FPath) : String :=
  pathToString (p.drop root.length)

/-- `os.path.abspath(os.path.join(d, *([".."] * n)))`: drop the last `n`
    segments of an (already absolute, normalized) directory path. -/
def dropLastN (n : Nat) (p : FPath) : FPath :=
  p.take (p.length - n)

/-- Character-list prefix test. -/
def isCharPrefix : List Char → List Char → Bool
  | [], _ => true
  | _ :: _, [] => false
  | a :: as, b :: bs => a = b && isCharPrefix as bs

/-- Python `s.startswith(pre)` — a *string* prefix test (it may cut a
    path in the middle of a segment, exactly as
    `path_with_ext.startswith(self.project_root)` does). -/
def strStartsWith (s pre : String) : Bool :=
  isCharPrefix pre.data s.data

/-! Section: the import resolver, `SymbolVisitor._resolve_import_path`. -/

/--
`SymbolVisitor._resolve_import_path(module_name, level)` (source lines 38-64).

* `level == 0` (absolute import): `base_path = join(project_root, *module_name.split('.'))`;
  try `base_path + '.py'` then `base_path + '/__init__.py'`; return the first
  existing candidate, else `None`.
* `level >= 1` (relative import): `current_dir = dirname(file_path)`;
  `base_path = abspath(join(current_dir, *([".."] * (level - 1))))`;
  if the module name is nonempty append its dot segments, else use
  `base_path` itself; try the same two extensions, but a candidate is
  accepted only when it exists *and* starts with the project root.
-/
def resolveImportPath (fs : Fs) (root filePath : FPath) (moduleName : String)
    (level : Nat) : Option FPath :=
  if level = 0 then
    let basePath := root ++ splitDots moduleName
    let c1 := withSuffix basePath ".py"
    if c1 ∈ fs then some c1
    else
      let c2 := basePath ++ ["__init__.py"]
      if c2 ∈ fs then some c2 else none
  else
    let currentDir := filePath.dropLast
    let basePath := dropLastN (level - 1) currentDir
    let finalPath := if moduleName = "" then basePath else basePath ++ splitDots moduleName
    let c1 := withSuffix finalPath ".py"
    if c1 ∈ fs ∧ strStartsWith (pathToString c1) (pathToString root) = true then some c1
    else
      let c2 := finalPath ++ ["__init__.py"]
      if c2 ∈ fs ∧ strStartsWith (pathToString c2) (pathToString root) = true then some c2
      else none

/-! Section: the Python AST fragment traversed by `SymbolVisitor`. -/

/-- `ast.Load` / `ast.Store` expression contexts. -/
inductive ExprCtx where
  | load
  | store

/-- The expression forms relevant to the visitor: constants (no names
    inside), `ast.Name` (with context and line number), and `ast.Call`
    (whose `generic_visit` visits the callee, then the arguments). -/
inductive PyExpr where
  | const : PyExpr
  | name : String → ExprCtx → Nat → PyExpr
  | call : PyExpr → List PyExpr → PyExpr

/-- An `ast.alias` of an import statement: name and optional `as` name. -/
structure PyAlias where
  aname : String
  asname : Option String

/-- The statement forms the visitor has handlers for. -/
inductive PyStmt where
  | functionDef : String → List String → List PyStmt → Nat → PyStmt
  | classDef : String → List PyStmt → Nat → PyStmt
  | assign : List PyExpr → PyExpr → Nat → PyStmt
  | exprStmt : PyExpr → PyStmt
  | importStmt : List PyAlias → PyStmt
  | importFrom : Option String → List PyAlias → Nat → PyStmt
  | passStmt : PyStmt

/-! Section: `SymbolVisitor`. -/

/-- One entry of `SymbolVisitor.definitions`: the dictionaries built at
    source lines 69-74 (functions, `info` = argument names), 136-141
    (classes, `info` = method names) and 159-163 (module-level variables,
    `info` empty). -/
structure Defn where
  type : String
  name : String
  line : Nat
  info : List String
deriving DecidableEq

/-- The mutable state of `SymbolVisitor`.  The scope stack is kept with
    the innermost scope first (Python appends/pops at the end of the
    list; head-first is the mirrored convention here, with
    `reversed(self._scope_stack)` becoming plain head-to-tail order). -/
structure VisitorState where
  definitions : List Defn
  usedSymbols : List (String × Nat)
  imports : List FPath
  scopeStack : List (List String)
  currentClassName : Option String
deriving DecidableEq

/-- `SymbolVisitor.__init__`: empty collections and a module scope
    pre-seeded with the magic names `__file__` and `__name__`. -/
def initVisitorState : VisitorState :=
  { definitions := []
    usedSymbols := []
    imports := []
    scopeStack := [["__file__", "__name__"]]
    currentClassName := none }

/-- Python `set.add` on a set modelled as a duplicate-free list. -/
def insertIfAbsent (n : String) (s : List String) : List String :=
  if n ∈ s then s else n :: s

/-- `SymbolVisitor._add_defined`: add to the innermost scope (no-op on an
    empty stack, mirroring the `if self._scope_stack:` guard). -/
def addDefined (st : VisitorState) (n : String) : VisitorState :=
  match st.scopeStack with
  | [] => st
  | s :: rest => { st with scopeStack := insertIfAbsent n s :: rest }

/-- `SymbolVisitor._is_defined_in_scope`: search every scope of the stack. -/
def isDefinedInScope (st : VisitorState) (n : String) : Bool :=
  st.scopeStack.any (fun s => decide (n ∈ s))

/-- `set.add` for the resolved-import set. -/
def insertImport (p : FPath) (l : List FPath) : List FPath :=
  if p ∈ l then l else l ++ [p]

/-- The read-only context a `SymbolVisitor` carries: the filesystem, the
    project root, and the path of the file being visited. -/
structure VCtx where
  fs : Fs
  projectRoot : FPath
  filePath : FPath

mutual

/-- `SymbolVisitor.visit` on expressions — `visit_Name` (lines 170-174)
    for names, `generic_visit` for constants and calls. -/
def visitExpr (st : VisitorState) : PyExpr → VisitorState
  | .const => st
  | .name id ctx lineno =>
    match ctx with
    | .load =>
      if isDefinedInScope st id then st
      else { st with usedSymbols := st.usedSymbols ++ [(id, lineno)] }
    | .store => addDefined st id
  | .call f args => visitExprs (visitExpr st f) args

/-- Visit a list of child expressions in order. -/
def visitExprs (st : VisitorState) : List PyExpr → VisitorState
  | [] => st
  | e :: es => visitExprs (visitExpr st e) es

end

mutual

/-- `SymbolVisitor.visit` on statements: `visit_FunctionDef` (66-80),
    `visit_ClassDef` (130-149), `visit_Assign` (151-167),
    `visit_Import` (176-178), `visit_ImportFrom` (180-189), and
    `generic_visit` for expression statements and `pass`. -/
def visitStmt (ctx : VCtx) (st : VisitorState) : PyStmt → VisitorState
  | .functionDef nm args body lineno =>
    -- is_method = self._current_class_name is not None
    let st1 :=
      if st.currentClassName.isSome then st
      else { st with definitions := st.definitions ++ [⟨"function", nm, lineno, args⟩] }
    let st2 := addDefined st1 nm
    -- push a scope holding the parameter-name set, visit the body, pop
    let st3 := { st2 with scopeStack := args.foldl (fun s a => insertIfAbsent a s) [] :: st2.scopeStack }
    let st4 := visitStmts ctx st3 body
    { st4 with scopeStack := st4.scopeStack.tail }
  | .classDef nm body lineno =>
    let methods := body.filterMap (fun s =>
      match s with
      | .functionDef m _ _ _ => some m
      | _ => none)
    let st1 := { st with definitions := st.definitions ++ [⟨"class", nm, lineno, methods⟩] }
    let st2 := addDefined st1 nm
    -- class scope: set _current_class_name, push an empty scope, visit,
    -- pop, and reset _current_class_name to None (not to its old value)
    let st3 := { st2 with currentClassName := some nm, scopeStack := [] :: st2.scopeStack }
    let st4 := visitStmts ctx st3 body
    { st4 with scopeStack := st4.scopeStack.tail, currentClassName := none }
  | .assign targets value lineno =>
    -- visit the value first, then the targets
    let st1 := visitExpr st value
    targets.foldl (fun s t =>
      match t with
      | .name id _ _ =>
        -- a Name target: record a module-level variable definition when
        -- the scope stack has exactly one level, then mark it defined
        let s1 :=
          if s.scopeStack.length = 1 then
            { s with definitions := s.definitions ++ [⟨"variable", id, lineno, []⟩] }
          else s
        addDefined s1 id
      | other => visitExpr s other) st1
  | .exprStmt e => visitExpr st e
  | .importStmt aliases =>
    -- visit_Import records no resolved import path at all; it only marks
    -- the alias names as defined
    aliases.foldl (fun s a => addDefined s (a.asname.getD a.aname)) st
  | .importFrom module aliases level =>
    let resolved := resolveImportPath ctx.fs ctx.projectRoot ctx.filePath (module.getD "") level
    let st1 :=
      match resolved with
      | some p => { st with imports := insertImport p st.imports }
      | none => st
    aliases.foldl (fun s a => addDefined s (a.asname.getD a.aname)) st1
  | .passStmt => st

/-- Visit a list of statements in order (`generic_visit` of a module or
    of a statement body). -/
def visitStmts (ctx : VCtx) (st : VisitorState) : List PyStmt → VisitorState
  | [] => st
  | s :: ss => visitStmts ctx (visitStmt ctx st s) ss

end

/-- Run a fresh `SymbolVisitor` over a parsed module. -/
def visitModule (ctx : VCtx) (stmts : List PyStmt) : VisitorState :=
  visitStmts ctx initVisitorState stmts

/-! Section: `ProjectAnalyzer`. -/

/-- The names of `dir(builtins)` in the CPython runtime, as gathered by
    `ProjectAnalyzer.__init__` (source line 199). -/
def pythonBuiltins : List String :=
  ["ArithmeticError", "AssertionError", "AttributeError", "BaseException",
   "BaseExceptionGroup", "BlockingIOError", "BrokenPipeError", "BufferError",
   "BytesWarning", "ChildProcessError", "ConnectionAbortedError",
   "ConnectionError", "ConnectionRefusedError", "ConnectionResetError",
   "DeprecationWarning", "EOFError", "Ellipsis", "EncodingWarning",
   "EnvironmentError", "Exception", "ExceptionGroup", "False",
   "FileExistsError", "FileNotFoundError", "FloatingPointError",
   "FutureWarning", "GeneratorExit", "IOError", "ImportError",
   "ImportWarning", "IndentationError", "IndexError", "InterruptedError",
   "IsADirectoryError", "KeyError", "KeyboardInterrupt", "LookupError",
   "MemoryError", "ModuleNotFoundError", "NameError", "None",
   "NotADirectoryError", "NotImplemented", "NotImplementedError", "OSError",
   "OverflowError", "PendingDeprecationWarning", "PermissionError",
   "ProcessLookupError", "RecursionError", "ReferenceError",
   "ResourceWarning", "RuntimeError", "RuntimeWarning",
   "StopAsyncIteration", "StopIteration", "SyntaxError", "SyntaxWarning",
   "SystemError", "SystemExit", "TabError", "TimeoutError", "True",
   "TypeError", "UnboundLocalError", "UnicodeDecodeError",
   "UnicodeEncodeError", "UnicodeError", "UnicodeTranslateError",
   "UnicodeWarning", "UserWarning", "ValueError", "Warning",
   "ZeroDivisionError", "__build_class__", "__debug__", "__doc__",
   "__import__", "__loader__", "__name__", "__package__", "__spec__",
   "abs", "aiter", "anext", "all", "any", "ascii", "bin", "bool",
   "breakpoint", "bytearray", "bytes", "callable", "chr", "classmethod",
   "compile", "complex", "copyright", "credits", "delattr", "dict", "dir",
   "divmod", "enumerate", "eval", "exec", "exit", "filter", "float",
   "format", "frozenset", "getattr", "globals", "hasattr", "hash", "help",
   "hex", "id", "input", "int", "isinstance", "issubclass", "iter", "len",
   "license", "list", "locals", "map", "max", "memoryview", "min", "next",
   "object", "oct", "open", "ord", "pow", "print", "property", "quit",
   "range", "repr", "reversed", "round", "set", "setattr", "slice",
   "sorted", "staticmethod", "str", "sum", "super", "tuple", "type",
   "vars", "zip"]

/-- One value of `ProjectAnalyzer.file_map` (source lines 235-239): the
    per-file definitions, used symbols, and the set of resolved imports as
    root-relative path strings. -/
structure FileData where
  definitions : List Defn
  usedSymbols : List (String × Nat)
  imports : List String
deriving DecidableEq

/-- The file map, keyed by root-relative path string, in insertion order. -/
abbrev FileMap := List (String × FileData)

/-- Python `dict` assignment `m[key] = v`: update in place when the key is
    present, append otherwise. -/
def updateOrAppend (key : String) (v : FileData) : FileMap → FileMap
  | [] => [(key, v)]
  | (k, d) :: rest =>
    if k = key then (k, v) :: rest else (k, d) :: updateOrAppend key v rest

/-- The outcome of the per-file loop of `ProjectAnalyzer.analyze`: the
    file map plus the list of files skipped with a
    `"Skipping file due to error"` message (source line 241). -/
structure AnalysisOutcome where
  fileMap : FileMap
  skipped : List FPath
deriving DecidableEq

/-- `ProjectAnalyzer._analyze_file` for one file.  A file comes with its
    parse result: `none` models a read/decode/parse failure (the `except`
    branch prints `"Skipping file due to error: <path>"` and stores
    nothing), `some tree` a successful parse. -/
def analyzeFileStep (fs : Fs) (root : FPath) (acc : AnalysisOutcome)
    (pf : FPath × Option (List PyStmt)) : AnalysisOutcome :=
  match pf.2 with
  | some tree =>
    let v := visitModule ⟨fs, root, pf.1⟩ tree
    let entry : FileData :=
      { definitions := v.definitions
        usedSymbols := v.usedSymbols
        imports := (v.imports.filter (fun p => p ≠ [])).map (relPathStr root) }
    { acc with fileMap := updateOrAppend (relPathStr root pf.1) entry acc.fileMap }
  | none => { acc with skipped := acc.skipped ++ [pf.1] }

/-- `ProjectAnalyzer._analyze_file` over every supplied file, in order. -/
def analyzeFiles (fs : Fs) (root : FPath) (files : List (FPath × Option (List PyStmt))) :
    AnalysisOutcome :=
  files.foldl (analyzeFileStep fs root) ⟨[], []⟩

/-- `ProjectAnalyzer._collect_all_defined_symbols` together with the
    initial `all_defined_symbols` of `__init__`:
    `set(dir(builtins)) | {'__file__', '__name__'}` extended with every
    definition name of every file (membership is all that is consumed). -/
def allDefinedSymbols (fm : FileMap) : List String :=
  pythonBuiltins ++ ["__file__", "__name__"] ++
    fm.flatMap (fun p => p.2.definitions.map (fun d => d.name))

/-- One entry of the undefined-symbol report. -/
structure UndefEntry where
  symbol : String
  file : String
  line : Nat
deriving DecidableEq

/-- One entry of the unused-symbol report. -/
structure UnusedEntry where
  symbol : String
  type : String
  file : String
  line : Nat
deriving DecidableEq

/-- `ProjectAnalyzer._find_undefined_symbols` (source lines 271-284): every
    recorded use whose name is in no scope of its own file and is not among
    the project-wide defined symbols; finally de-duplicated through a set
    (modelled as `List.dedup`; the set iteration order of Python is
    unspecified and the result is sorted downstream anyway). -/
def findUndefinedSymbols (fm : FileMap) : List UndefEntry :=
  let raw := fm.flatMap (fun p =>
    (p.2.usedSymbols.filter (fun u => u.1 ∉ allDefinedSymbols fm)).map
      (fun u => { symbol := u.1, file := p.1, line := u.2 }))
  raw.dedup

/-- `ProjectAnalyzer._find_unused_symbols` (source lines 286-307): keep
    definitions of type `function` or `class` whose name is nowhere among
    the recorded used symbols and does not start with `__`. -/
def findUnusedSymbols (fm : FileMap) : List UnusedEntry :=
  let allUsed := fm.flatMap (fun p => p.2.usedSymbols.map (fun u => u.1))
  fm.flatMap (fun p =>
    (p.2.definitions.filter (fun d =>
      (d.type = "function" ∨ d.type = "class") ∧
        d.name ∉ allUsed ∧ ¬ startsWithDunder d.name = true)).map
      (fun d => { symbol := d.name, type := d.type, file := p.1, line := d.line }))

/-! Section: cycle detection, `ProjectAnalyzer._detect_circular_imports`. -/

/-- An import graph: file keys with their neighbour lists.  The Python
    dictionary holds the neighbours as a `set`; its iteration order is an
    input here (theorems about the detector quantify over it). -/
abbrev Graph := List (String × List String)

/-- `graph.get(node, [])`. -/
def neighborsOf (g : Graph) (n : String) : List String :=
  match g.find? (fun p => p.1 = n) with
  | some p => p.2
  | none => []

/-- The state threaded through `dfs`: the recursion path, the `visiting`
    and `visited` sets, and the cycles recorded so far. -/
structure DfsState where
  path : List String
  visiting : List String
  visited : List String
  cycles : List (List String)
deriving DecidableEq

/-- `tuple(sorted(cycle))`: the canonical key used for de-duplication. -/
def sortKey (c : List String) : List String :=
  pySorted c

/-- `path[path.index(n):]` — the suffix of the path from the first
    occurrence of `n` (empty when `n` is absent, in which case the source
    would raise and `continue`). -/
def sliceFrom (n : String) : List String → List String
  | [] => []
  | x :: xs => if x = n then x :: xs else sliceFrom n xs

/-- Record a found cycle unless a cycle with the same sorted key is
    already recorded (source lines 326-329). -/
def addCycleIfNew (st : DfsState) (cycle : List String) : DfsState :=
  if sortKey cycle ∈ st.cycles.map sortKey then st
  else { st with cycles := st.cycles ++ [cycle] }

/-- The body of `dfs(node)` (source lines 318-337), with an explicit fuel
    so the recursion is structural: mark the node visiting, push it on the
    path, fold over its neighbours (recording a cycle for a neighbour on
    the current path, recursing into unvisited ones), then pop the node,
    unmark it and mark it visited.  With fuel at least the number of
    distinct nodes the zero-fuel branch is never reached. -/
def dfsVisit (g : Graph) : Nat → String → DfsState → DfsState
  | 0, _, st => st
  | fuel + 1, node, st =>
    let st1 := { st with
      visiting := if node ∈ st.visiting then st.visiting else node :: st.visiting
      path := st.path ++ [node] }
    let st2 := (neighborsOf g node).foldl (fun s n =>
      if n ∈ s.visiting then
        if n ∈ s.path then addCycleIfNew s (sliceFrom n s.path ++ [n]) else s
      else if n ∈ s.visited then s
      else dfsVisit g fuel n s) st1
    { st2 with
      path := st2.path.dropLast
      visiting := st2.visiting.erase node
      visited := if node ∈ st2.visited then st2.visited else node :: st2.visited }

/-- Ample fuel: more than the number of node names mentioned anywhere. -/
def dfsFuel (g : Graph) : Nat :=
  g.length + (g.map (fun p => p.2.length)).sum + 1

/-- `ProjectAnalyzer._detect_circular_imports` (source lines 309-343):
    run `dfs` from every key not yet visited and return the recorded
    cycle list. -/
def detectCircularImports (g : Graph) : List (List String) :=
  (g.foldl (fun st p => if p.1 ∈ st.visited then st else dfsVisit g (dfsFuel g) p.1 st)
    ⟨[], [], [], []⟩).cycles

/-! Section: coupling metrics, `ProjectAnalyzer._calculate_coupling`. -/

/-- The per-file coupling dictionary value: it holds exactly an afferent
    and an efferent counter (`defaultdict(lambda: {"afferent": 0,
    "efferent": 0})`, source line 347). -/
structure CouplingMetric where
  afferent : Nat
  efferent : Nat
deriving DecidableEq

/-- The key/value pairs of the per-file coupling dictionary, exactly as
    the source constructs it. -/
def metricItems (m : CouplingMetric) : List (String × Nat) :=
  [("afferent", m.afferent), ("efferent", m.efferent)]

/-- `defaultdict` access-and-assign `coupling[key] = f(coupling[key])`:
    update in place when present, append `f` of the default otherwise. -/
def updateCoupling (key : String) (f : CouplingMetric → CouplingMetric) :
    List (String × CouplingMetric) → List (String × CouplingMetric)
  | [] => [(key, f ⟨0, 0⟩)]
  | (k, m) :: rest =>
    if k = key then (k, f m) :: rest else (k, m) :: updateCoupling key f rest

/-- `ProjectAnalyzer._calculate_coupling` (source lines 345-359): first
    set every file key to efferent = number of its (distinct) imports,
    then walk every import of every file and, when the imported file is a
    file-map key, increment the afferent counter of the imported file. -/
def calcCoupling (fm : FileMap) : List (String × CouplingMetric) :=
  let base := fm.foldl (fun acc p =>
    updateCoupling p.1 (fun m => { m with efferent := p.2.imports.length }) acc) []
  fm.foldl (fun acc p =>
    p.2.imports.foldl (fun acc2 imp =>
      if fm.any (fun q => q.1 = imp) then
        updateCoupling imp (fun m => { m with afferent := m.afferent + 1 }) acc2
      else acc2) acc) base

/-! Section: the final report, `ProjectAnalyzer._build_final_report`. -/

/-- The `(file, line)` sort key used on both issue lists
    (`key=lambda x: (x['file'], x['line'])`). -/
def UndefLe (a b : UndefEntry) : Prop :=
  (strLe a.file b.file = true ∧ a.file ≠ b.file) ∨ (a.file = b.file ∧ a.line ≤ b.line)

instance : DecidableRel UndefLe := fun a b => by
  unfold UndefLe; infer_instance

/-- The `(file, line)` sort key for unused-symbol entries. -/
def UnusedLe (a b : UnusedEntry) : Prop :=
  (strLe a.file b.file = true ∧ a.file ≠ b.file) ∨ (a.file = b.file ∧ a.line ≤ b.line)

instance : DecidableRel UnusedLe := fun a b => by
  unfold UnusedLe; infer_instance

/-- The analysis report: the `issues` collections of
    `_build_final_report` plus the coupling table it computes and attaches
    to the file details (source lines 249-269). -/
structure Report where
  undefinedSymbols : List UndefEntry
  unusedSymbols : List UnusedEntry
  circularImports : List (List String)
  coupling : List (String × CouplingMetric)
  fileDetails : FileMap
deriving DecidableEq

/-- `ProjectAnalyzer._build_final_report` over a file map. -/
def buildReport (fm : FileMap) : Report :=
  { undefinedSymbols := List.insertionSort UndefLe (findUndefinedSymbols fm)
    unusedSymbols := List.insertionSort UnusedLe (findUnusedSymbols fm)
    circularImports := detectCircularImports (fm.map (fun p => (p.1, p.2.imports)))
    coupling := calcCoupling fm
    fileDetails := fm }

/-- `ProjectAnalyzer.analyze`: analyze every file, then aggregate. -/
def analyzeProject (fs : Fs) (root : FPath) (files : List (FPath × Option (List PyStmt))) :
    Report :=
  buildReport (analyzeFiles fs root files).fileMap

/-! Section: general lemmas about the embedding. -/

theorem addDefined_imports (st : VisitorState) (n : String) :
    (addDefined st n).imports = st.imports := by
  unfold addDefined
  cases st.scopeStack <;> rfl

theorem addDefined_usedSymbols (st : VisitorState) (n : String) :
    (addDefined st n).usedSymbols = st.usedSymbols := by
  unfold addDefined
  cases st.scopeStack <;> rfl

theorem addDefined_definitions (st : VisitorState) (n : String) :
    (addDefined st n).definitions = st.definitions := by
  unfold addDefined
  cases st.scopeStack <;> rfl

theorem foldl_addDefined_imports (aliases : List PyAlias) (st : VisitorState) :
    (aliases.foldl (fun s a => addDefined s (a.asname.getD a.aname)) st).imports
      = st.imports := by
  induction aliases generalizing st with
  | nil => rfl
  | cons a as ih => simp [List.foldl_cons, ih, addDefined_imports]

/-! Section: claim C8 — absolute import resolution. -/

/-- **C8.** For every absolute import (relativity level 0) of a dotted
    module name, resolution joins the project root with the dot
    segments of the name and (1) returns `<path>.py` whenever that file
    exists; (2) tries `<path>/__init__.py` only when `<path>.py` does not
    exist; and (3) when neither exists returns `None`, in which case the
    visitor adds no import edge for the declaration. -/
theorem c8_absolute_import_resolution (fs : Fs) (root filePath : FPath)
    (moduleName : String) (aliases : List PyAlias) (st : VisitorState) :
    (withSuffix (root ++ splitDots moduleName) ".py" ∈ fs →
      resolveImportPath fs root filePath moduleName 0 =
        some (withSuffix (root ++ splitDots moduleName) ".py")) ∧
    (withSuffix (root ++ splitDots moduleName) ".py" ∉ fs →
      (root ++ splitDots moduleName) ++ ["__init__.py"] ∈ fs →
      resolveImportPath fs root filePath moduleName 0 =
        some ((root ++ splitDots moduleName) ++ ["__init__.py"])) ∧
    (withSuffix (root ++ splitDots moduleName) ".py" ∉ fs →
      (root ++ splitDots moduleName) ++ ["__init__.py"] ∉ fs →
      resolveImportPath fs root filePath moduleName 0 = none ∧
      (visitStmt ⟨fs, root, filePath⟩ st (.importFrom (some moduleName) aliases 0)).imports
        = st.imports) := by
  refine ⟨?_, ?_, ?_⟩
  · intro h1
    simp [resolveImportPath, h1]
  · intro h1 h2
    rw [List.append_assoc] at h2
    simp [resolveImportPath, h1, h2]
  · intro h1 h2
    rw [List.append_assoc] at h2
    have hres : resolveImportPath fs root filePath moduleName 0 = none := by
      simp [resolveImportPath, h1, h2]
    refine ⟨hres, ?_⟩
    simp only [visitStmt, Option.getD_some, hres]
    exact foldl_addDefined_imports aliases st

/-- Witness for C8, instantiating all three branches at concrete inputs:
    a filesystem where the `.py` form exists, one where only the package
    form exists, and an empty one. -/
theorem c8_witness :
    (resolveImportPath [["proj", "m.py"]] ["proj"] ["proj", "x.py"] "m" 0 =
      some ["proj", "m.py"]) ∧
    (resolveImportPath [["proj", "m", "__init__.py"]] ["proj"] ["proj", "x.py"] "m" 0 =
      some ["proj", "m", "__init__.py"]) ∧
    (resolveImportPath [] ["proj"] ["proj", "x.py"] "m" 0 = none ∧
      (visitStmt ⟨[], ["proj"], ["proj", "x.py"]⟩ initVisitorState
        (.importFrom (some "m") [] 0)).imports = initVisitorState.imports) := by
  refine ⟨?_, ?_, ?_⟩
  · exact (c8_absolute_import_resolution [["proj", "m.py"]] ["proj"] ["proj", "x.py"]
      "m" [] initVisitorState).1 (by decide)
  · exact (c8_absolute_import_resolution [["proj", "m", "__init__.py"]] ["proj"]
      ["proj", "x.py"] "m" [] initVisitorState).2.1 (by decide) (by decide)
  · exact (c8_absolute_import_resolution [] ["proj"] ["proj", "x.py"]
      "m" [] initVisitorState).2.2 (by decide) (by decide)

/-! Section: claim C5 — resolving `from . import sibling`. -/

theorem isCharPrefix_append (l m : List Char) : isCharPrefix l (l ++ m) = true := by
  induction l with
  | nil => rfl
  | cons a as ih => simp [isCharPrefix, ih]

theorem strStartsWith_append (s t : String) : strStartsWith (s ++ t) s = true := by
  unfold strStartsWith
  rw [String.data_append]
  exact isCharPrefix_append s.data t.data

theorem withSuffix_ne_nil (p : FPath) (s : String) : withSuffix p s ≠ [] := by
  match p with
  | [] => simp [withSuffix]
  | [x] => simp [withSuffix]
  | x :: y :: rest => simp [withSuffix]

theorem withSuffix_append_left (l m : FPath) (s : String) (hm : m ≠ []) :
    withSuffix (l ++ m) s = l ++ withSuffix m s := by
  induction l with
  | nil => rfl
  | cons x xs ih =>
    cases hxs : xs ++ m with
    | nil => simp [hxs] at hm; simp [List.append_eq_nil] at hxs; exact absurd hxs.2 hm
    | cons z zs =>
      have : x :: xs ++ m = x :: z :: zs := by rw [← hxs]; rfl
      rw [this, withSuffix, ← hxs, ih]
      cases xs with
      | nil => rfl
      | cons w ws => rfl

theorem pathToString_append (l m : FPath) (hl : l ≠ []) (hm : m ≠ []) :
    pathToString (l ++ m) = pathToString l ++ "/" ++ pathToString m := by
  induction l with
  | nil => exact absurd rfl hl
  | cons x xs ih =>
    cases xs with
    | nil =>
      cases m with
      | nil => exact absurd rfl hm
      | cons z zs => rfl
    | cons y ys =>
      have h1 : (x :: y :: ys) ++ m = x :: ((y :: ys) ++ m) := rfl
      have h2 : (y :: ys) ++ m = y :: (ys ++ m) := rfl
      rw [h1]
      have hne : (y :: ys) ++ m ≠ [] := by simp
      calc pathToString (x :: (y :: ys) ++ m)
          = x ++ "/" ++ pathToString ((y :: ys) ++ m) := by
            rw [h2]; rfl
        _ = x ++ "/" ++ (pathToString (y :: ys) ++ "/" ++ pathToString m) := by
            rw [ih (by simp)]
        _ = pathToString (x :: y :: ys) ++ "/" ++ pathToString m := by
            show _ = (x ++ "/" ++ pathToString (y :: ys)) ++ "/" ++ pathToString m
            simp only [String.append_assoc]

/-- For a nonempty extension of the root, the rendered path starts with
    the rendered root. -/
theorem strStartsWith_pathToString (root ext : FPath) (hext : ext ≠ []) :
    strStartsWith (pathToString (root ++ ext)) (pathToString root) = true := by
  cases hr : root with
  | nil =>
    unfold strStartsWith
    simp [pathToString, isCharPrefix]
  | cons x xs =>
    rw [pathToString_append (x :: xs) ext (by simp) hext]
    rw [String.append_assoc]
    exact strStartsWith_append _ _

/-- **C5 (counterexample).** `from . import sibling` resolved from
    `pkg/mod.py` (level 1, empty module name) on a filesystem where
    `pkg/mod.py`, `pkg/sibling.py` and `pkg/__init__.py` all exist
    yields `pkg/__init__.py` — not `pkg/sibling.py` (which exists) and
    not `pkg/sibling/__init__.py`, contrary to the claim. -/
theorem c5_counterexample :
    resolveImportPath
        [["proj", "pkg", "mod.py"], ["proj", "pkg", "sibling.py"],
         ["proj", "pkg", "__init__.py"]]
        ["proj"] ["proj", "pkg", "mod.py"] "" 1
      = some ["proj", "pkg", "__init__.py"] ∧
    resolveImportPath
        [["proj", "pkg", "mod.py"], ["proj", "pkg", "sibling.py"],
         ["proj", "pkg", "__init__.py"]]
        ["proj"] ["proj", "pkg", "mod.py"] "" 1
      ≠ some ["proj", "pkg", "sibling.py"] ∧
    resolveImportPath
        [["proj", "pkg", "mod.py"], ["proj", "pkg", "sibling.py"],
         ["proj", "pkg", "__init__.py"]]
        ["proj"] ["proj", "pkg", "mod.py"] "" 1
      ≠ some ["proj", "pkg", "sibling", "__init__.py"] := by
  refine ⟨by decide, by decide, by decide⟩

/-- **C5 (amended).** Resolving `from . import sibling` (level 1, empty
    module name) from `pkg/mod.py` resolves the *package directory
    itself*, not the imported name: it yields `pkg.py` when that file
    exists, else `pkg/__init__.py` when that exists, else nothing (the
    names after `import` are only bound in scope, never resolved to a
    file). -/
theorem c5_amended_from_dot_import (fs : Fs) (root pkg : FPath) (modFile : String)
    (hpkg : pkg ≠ []) :
    resolveImportPath fs root (root ++ pkg ++ [modFile]) "" 1 =
      (if withSuffix (root ++ pkg) ".py" ∈ fs then some (withSuffix (root ++ pkg) ".py")
       else if (root ++ pkg) ++ ["__init__.py"] ∈ fs
         then some ((root ++ pkg) ++ ["__init__.py"])
       else none) := by
  have hdir : (root ++ pkg ++ [modFile]).dropLast = root ++ pkg := by
    rw [List.append_assoc, ← List.append_assoc]
    exact List.dropLast_concat
  have hbase : dropLastN 0 (root ++ pkg) = root ++ pkg := by
    unfold dropLastN
    simp
  have hpre1 : strStartsWith (pathToString (withSuffix (root ++ pkg) ".py"))
      (pathToString root) = true := by
    rw [withSuffix_append_left root pkg ".py" hpkg]
    exact strStartsWith_pathToString root _ (withSuffix_ne_nil pkg ".py")
  have hpre2 : strStartsWith (pathToString ((root ++ pkg) ++ ["__init__.py"]))
      (pathToString root) = true := by
    rw [List.append_assoc]
    exact strStartsWith_pathToString root _ (by simp)
  unfold resolveImportPath
  simp only [if_neg (by omega : ¬ (1 : Nat) = 0), hdir, Nat.sub_self, hbase,
    if_pos rfl, hpre1, hpre2, and_true, if_true, eq_self_iff_true]

/-- Witness for C5 (amended), at the concrete scenario of the claim. -/
theorem c5_amended_witness :
    resolveImportPath
        [["proj", "pkg", "mod.py"], ["proj", "pkg", "sibling.py"],
         ["proj", "pkg", "__init__.py"]]
        ["proj"] ["proj", "pkg", "mod.py"] "" 1
      = some ["proj", "pkg", "__init__.py"] := by
  have h := c5_amended_from_dot_import
    [["proj", "pkg", "mod.py"], ["proj", "pkg", "sibling.py"],
     ["proj", "pkg", "__init__.py"]]
    ["proj"] ["pkg"] "mod.py" (by decide)
  exact Eq.trans h (by decide)

/-! Section: claim C9 — parse-failure isolation. -/

theorem analyzeFold_fileMap_congr (fs : Fs) (root : FPath)
    (files : List (FPath × Option (List PyStmt))) :
    ∀ acc1 acc2 : AnalysisOutcome, acc1.fileMap = acc2.fileMap →
      (files.foldl (analyzeFileStep fs root) acc1).fileMap
        = (files.foldl (analyzeFileStep fs root) acc2).fileMap := by
  induction files with
  | nil => intro acc1 acc2 h; exact h
  | cons pf rest ih =>
    intro acc1 acc2 h
    apply ih
    match hpf : pf.2 with
    | some tree => simp [analyzeFileStep, hpf, h]
    | none => simp [analyzeFileStep, hpf, h]

theorem analyzeFold_skipped (fs : Fs) (root : FPath)
    (files : List (FPath × Option (List PyStmt))) :
    ∀ acc : AnalysisOutcome,
      (files.foldl (analyzeFileStep fs root) acc).skipped
        = acc.skipped ++ files.filterMap
            (fun pf => match pf.2 with | none => some pf.1 | some _ => none) := by
  induction files with
  | nil => intro acc; simp
  | cons pf rest ih =>
    intro acc
    match hpf : pf.2 with
    | some tree =>
      simp only [List.foldl_cons, List.filterMap_cons, hpf]
      rw [ih]
      simp [analyzeFileStep, hpf]
    | none =>
      simp only [List.foldl_cons, List.filterMap_cons, hpf]
      rw [ih]
      simp [analyzeFileStep, hpf]

/-- **C9.** A parse failure in one file is isolated: the failed file
    contributes no file-map entry (hence zero definitions, uses
    and import edges anywhere downstream), a skip diagnostic is recorded for
    exactly that file, and the whole report — undefined, unused, cycles,
    coupling — is the one obtained as if the file had not been supplied
    at all; the run always completes. -/
theorem c9_parse_failure_isolated (fs : Fs) (root : FPath)
    (pre post : List (FPath × Option (List PyStmt))) (p : FPath) :
    analyzeProject fs root (pre ++ (p, none) :: post)
      = analyzeProject fs root (pre ++ post) ∧
    (analyzeFiles fs root (pre ++ (p, none) :: post)).skipped
      = (analyzeFiles fs root pre).skipped ++ p :: (analyzeFiles fs root post).skipped ∧
    p ∈ (analyzeFiles fs root (pre ++ (p, none) :: post)).skipped := by
  have hfm : (analyzeFiles fs root (pre ++ (p, none) :: post)).fileMap
      = (analyzeFiles fs root (pre ++ post)).fileMap := by
    unfold analyzeFiles
    rw [List.foldl_append, List.foldl_append, List.foldl_cons]
    apply analyzeFold_fileMap_congr
    simp [analyzeFileStep]
  have hsk : (analyzeFiles fs root (pre ++ (p, none) :: post)).skipped
      = (analyzeFiles fs root pre).skipped ++ p :: (analyzeFiles fs root post).skipped := by
    unfold analyzeFiles
    rw [analyzeFold_skipped, analyzeFold_skipped, analyzeFold_skipped]
    simp
  refine ⟨?_, hsk, ?_⟩
  · unfold analyzeProject
    rw [hfm]
  · rw [hsk]
    simp

/-! Section: claim C2 — coupling metrics. -/

/-- The total number of import occurrences of `f` across the file map
    (one per importing file, since each per-file import list mirrors a
    Python `set` and is duplicate-free). -/
def afferentCount (fm : FileMap) (f : String) : Nat :=
  (fm.map (fun p => p.2.imports.count f)).sum

theorem updateCoupling_lookup_self (key : String) (f : CouplingMetric → CouplingMetric) :
    ∀ l : List (String × CouplingMetric),
      (updateCoupling key f l).lookup key = some (f ((l.lookup key).getD ⟨0, 0⟩)) := by
  intro l
  induction l with
  | nil => simp [updateCoupling, List.lookup]
  | cons p rest ih =>
    by_cases h : p.1 = key
    · simp [updateCoupling, h, List.lookup]
    · have h2 : (key == p.1) = false := by
        simp [beq_iff_eq]
        exact fun he => h he.symm
      simp [updateCoupling, h, List.lookup, h2, ih]

theorem updateCoupling_lookup_other (key : String) (f : CouplingMetric → CouplingMetric)
    (k : String) (hk : k ≠ key) :
    ∀ l : List (String × CouplingMetric),
      (updateCoupling key f l).lookup k = l.lookup k := by
  intro l
  have hbeq : (k == key) = false := beq_eq_false_iff_ne.mpr hk
  induction l with
  | nil => simp [updateCoupling, List.lookup, hbeq]
  | cons p rest ih =>
    by_cases h : p.1 = key
    · simp [updateCoupling, h, List.lookup, hbeq]
    · simp [updateCoupling, h, List.lookup, ih]

theorem metricItems_no_instability (m : CouplingMetric) :
    (metricItems m).lookup "instability" = none := rfl

theorem couplingBase_lookup_absent (f : String) :
    ∀ (fm : FileMap) (acc : List (String × CouplingMetric)),
      f ∉ fm.map Prod.fst →
      (fm.foldl (fun acc p =>
        updateCoupling p.1 (fun m => { m with efferent := p.2.imports.length }) acc) acc).lookup f
        = acc.lookup f := by
  intro fm
  induction fm with
  | nil => intro acc _; rfl
  | cons p rest ih =>
    intro acc hf
    simp only [List.map_cons, List.mem_cons, not_or] at hf
    rw [List.foldl_cons, ih _ hf.2, updateCoupling_lookup_other _ _ _ hf.1]

theorem couplingBase_lookup (f : String) (d : FileData) :
    ∀ (fm : FileMap) (acc : List (String × CouplingMetric)),
      (fm.map Prod.fst).Nodup → (f, d) ∈ fm → acc.lookup f = none →
      (fm.foldl (fun acc p =>
        updateCoupling p.1 (fun m => { m with efferent := p.2.imports.length }) acc) acc).lookup f
        = some ⟨0, d.imports.length⟩ := by
  intro fm
  induction fm with
  | nil => intro acc _ hmem _; exact absurd hmem (List.not_mem_nil _)
  | cons p rest ih =>
    intro acc hnd hmem hacc
    simp only [List.map_cons, List.nodup_cons] at hnd
    rw [List.foldl_cons]
    rcases List.mem_cons.mp hmem with heq | hrest
    · have hkey : p.1 = f := by rw [← heq]
      have hdata : p.2 = d := by rw [← heq]
      have habsent : f ∉ rest.map Prod.fst := hkey ▸ hnd.1
      rw [couplingBase_lookup_absent f rest _ habsent, hkey,
        updateCoupling_lookup_self, hacc, hdata]
      rfl
    · have hne : p.1 ≠ f := by
        intro he
        exact hnd.1 (he ▸ List.mem_map.mpr ⟨(f, d), hrest, rfl⟩)
      apply ih _ hnd.2 hrest
      rw [updateCoupling_lookup_other _ _ _ (Ne.symm hne), hacc]

theorem couplingInc_inner (fm : FileMap) (f : String)
    (hf : fm.any (fun q => q.1 = f) = true) :
    ∀ (imports : List String) (acc : List (String × CouplingMetric)) (m : CouplingMetric),
      acc.lookup f = some m →
      (imports.foldl (fun acc2 imp =>
        if fm.any (fun q => q.1 = imp) then
          updateCoupling imp (fun m => { m with afferent := m.afferent + 1 }) acc2
        else acc2) acc).lookup f
        = some { m with afferent := m.afferent + imports.count f } := by
  intro imports
  induction imports with
  | nil => intro acc m hacc; simpa using hacc
  | cons imp rest ih =>
    intro acc m hacc
    rw [List.foldl_cons]
    by_cases himp : imp = f
    · subst himp
      rw [if_pos hf]
      have hstep : (updateCoupling imp (fun m => { m with afferent := m.afferent + 1 }) acc).lookup imp
          = some { m with afferent := m.afferent + 1 } := by
        rw [updateCoupling_lookup_self, hacc]
        rfl
      rw [ih _ _ hstep]
      congr 1
      simp [List.count_cons]
      omega
    · have hcnt : rest.count f = (imp :: rest).count f := by
        simp [List.count_cons, himp]
      by_cases hg : fm.any (fun q => q.1 = imp) = true
      · rw [if_pos hg]
        have hstep : (updateCoupling imp (fun m => { m with afferent := m.afferent + 1 }) acc).lookup f
            = some m := by
          rw [updateCoupling_lookup_other imp _ f (Ne.symm himp), hacc]
        rw [ih _ _ hstep, ← hcnt]
      · rw [if_neg hg, ih _ _ hacc, ← hcnt]

theorem couplingInc_outer (fm : FileMap) (f : String)
    (hf : fm.any (fun q => q.1 = f) = true) :
    ∀ (entries : FileMap) (acc : List (String × CouplingMetric)) (m : CouplingMetric),
      acc.lookup f = some m →
      (entries.foldl (fun acc p =>
        p.2.imports.foldl (fun acc2 imp =>
          if fm.any (fun q => q.1 = imp) then
            updateCoupling imp (fun m => { m with afferent := m.afferent + 1 }) acc2
          else acc2) acc) acc).lookup f
        = some { m with afferent := m.afferent +
            (entries.map (fun p => p.2.imports.count f)).sum } := by
  intro entries
  induction entries with
  | nil => intro acc m hacc; simpa using hacc
  | cons p rest ih =>
    intro acc m hacc
    rw [List.foldl_cons]
    have hstep := couplingInc_inner fm f hf p.2.imports acc m hacc
    rw [ih _ _ hstep]
    congr 1
    simp
    omega

/-- The lookup characterization of `_calculate_coupling`: every file-map
    key is present, with efferent = the size of its import set and
    afferent = the number of files importing it. -/
theorem calcCoupling_lookup (fm : FileMap) (hnd : (fm.map Prod.fst).Nodup)
    (f : String) (d : FileData) (hmem : (f, d) ∈ fm) :
    (calcCoupling fm).lookup f = some ⟨afferentCount fm f, d.imports.length⟩ := by
  have hf : fm.any (fun q => q.1 = f) = true := by
    simp only [List.any_eq_true]
    exact ⟨(f, d), hmem, by simp⟩
  have hbase := couplingBase_lookup f d fm [] hnd hmem rfl
  unfold calcCoupling
  rw [couplingInc_outer fm f hf fm _ _ hbase]
  simp [afferentCount]

theorem updateOrAppend_keys (k : String) (v : FileData) :
    ∀ l : FileMap, (updateOrAppend k v l).map Prod.fst =
      (if k ∈ l.map Prod.fst then l.map Prod.fst else l.map Prod.fst ++ [k]) := by
  intro l
  induction l with
  | nil => simp [updateOrAppend]
  | cons p rest ih =>
    by_cases h : p.1 = k
    · simp [updateOrAppend, h]
    · by_cases hk : k ∈ rest.map Prod.fst
      · simp [updateOrAppend, h, ih, hk, Ne.symm h]
      · simp [updateOrAppend, h, ih, hk, Ne.symm h]

theorem updateOrAppend_keys_nodup (k : String) (v : FileData) (l : FileMap)
    (h : (l.map Prod.fst).Nodup) : ((updateOrAppend k v l).map Prod.fst).Nodup := by
  rw [updateOrAppend_keys]
  by_cases hk : k ∈ l.map Prod.fst
  · rwa [if_pos hk]
  · rw [if_neg hk]
    simp [List.nodup_append, h, hk]

/-- The file map built by the per-file loop has duplicate-free keys. -/
theorem analyzeFiles_keys_nodup (fs : Fs) (root : FPath)
    (files : List (FPath × Option (List PyStmt))) :
    ((analyzeFiles fs root files).fileMap.map Prod.fst).Nodup := by
  unfold analyzeFiles
  suffices h : ∀ acc : AnalysisOutcome, (acc.fileMap.map Prod.fst).Nodup →
      ((files.foldl (analyzeFileStep fs root) acc).fileMap.map Prod.fst).Nodup by
    exact h ⟨[], []⟩ (by simp)
  induction files with
  | nil => intro acc h; exact h
  | cons pf rest ih =>
    intro acc h
    rw [List.foldl_cons]
    apply ih
    match hpf : pf.2 with
    | some tree =>
      simp only [analyzeFileStep, hpf]
      exact updateOrAppend_keys_nodup _ _ _ h
    | none => simpa [analyzeFileStep, hpf] using h

/-- **C2 (counterexample).** In the single-file project consisting of the
    isolated `c.py` (no imports anywhere), the coupling table maps
    `c.py` to the dictionary `{"afferent": 0, "efferent": 0}` — no
    `instability` entry exists, where the claim demands instability 0.0
    be part of the mapping. -/
theorem c2_counterexample :
    (analyzeProject [] ["proj"]
        [(["proj", "c.py"], some [.functionDef "unused_fn" [] [.passStmt] 1])]).coupling
      = [("c.py", ⟨0, 0⟩)] ∧
    ((analyzeProject [] ["proj"]
        [(["proj", "c.py"], some [.functionDef "unused_fn" [] [.passStmt] 1])]).coupling.map
          (fun p => (metricItems p.2).lookup "instability"))
      = [none] := by
  exact ⟨by decide, by decide⟩

/-- **C2 (amended).** For every analyzed file `f`, the coupling output
    maps `f` (never omitted, isolated files included) to exactly an
    afferent count (the number of files importing `f`) and an efferent
    count (the number of distinct files `f` imports); no instability
    value is computed or emitted anywhere. -/
theorem c2_amended_coupling (fs : Fs) (root : FPath)
    (files : List (FPath × Option (List PyStmt))) (f : String) (d : FileData)
    (hmem : (f, d) ∈ (analyzeFiles fs root files).fileMap) :
    ∃ m : CouplingMetric,
      (analyzeProject fs root files).coupling.lookup f = some m ∧
      m.afferent = afferentCount (analyzeFiles fs root files).fileMap f ∧
      m.efferent = d.imports.length ∧
      (metricItems m).lookup "instability" = none := by
  refine ⟨⟨afferentCount (analyzeFiles fs root files).fileMap f, d.imports.length⟩, ?_, rfl, rfl, ?_⟩
  · unfold analyzeProject buildReport
    exact calcCoupling_lookup _ (analyzeFiles_keys_nodup fs root files) f d hmem
  · exact metricItems_no_instability _

/-- Witness for C2 (amended) at the isolated-file project. -/
theorem c2_amended_witness :
    ∃ m : CouplingMetric,
      (analyzeProject [] ["proj"]
          [(["proj", "c.py"], some [.functionDef "unused_fn" [] [.passStmt] 1])]).coupling.lookup
          "c.py" = some m ∧
      m.afferent = afferentCount
        (analyzeFiles [] ["proj"]
          [(["proj", "c.py"], some [.functionDef "unused_fn" [] [.passStmt] 1])]).fileMap
        "c.py" ∧
      m.efferent = (FileData.mk
        [⟨"function", "unused_fn", 1, []⟩] [] []).imports.length ∧
      (metricItems m).lookup "instability" = none :=
  c2_amended_coupling [] ["proj"]
    [(["proj", "c.py"], some [.functionDef "unused_fn" [] [.passStmt] 1])]
    "c.py" (FileData.mk [⟨"function", "unused_fn", 1, []⟩] [] []) (by decide)

/-! Section: the unused-symbol report (claims C3 and C10). -/

/-- Membership characterization of `_find_unused_symbols`. -/
theorem mem_findUnusedSymbols (fm : FileMap) (e : UnusedEntry) :
    e ∈ findUnusedSymbols fm ↔
      ∃ p ∈ fm, ∃ d ∈ p.2.definitions,
        (d.type = "function" ∨ d.type = "class") ∧
        d.name ∉ fm.flatMap (fun q => q.2.usedSymbols.map (fun u => u.1)) ∧
        startsWithDunder d.name = false ∧
        e = ⟨d.name, d.type, p.1, d.line⟩ := by
  unfold findUnusedSymbols
  simp only [List.mem_flatMap, List.mem_map, List.mem_filter, decide_eq_true_eq,
    Bool.not_eq_true]
  constructor
  · rintro ⟨p, hp, d, ⟨hd, htype, hused, hdunder⟩, he⟩
    exact ⟨p, hp, d, hd, htype, hused, hdunder, he.symm⟩
  · rintro ⟨p, hp, d, hd, htype, hused, hdunder, he⟩
    exact ⟨p, hp, d, ⟨hd, htype, hused, hdunder⟩, he.symm⟩

/-- The sort of `_build_final_report` does not change membership. -/
theorem mem_report_unused (fm : FileMap) (e : UnusedEntry) :
    e ∈ (buildReport fm).unusedSymbols ↔ e ∈ findUnusedSymbols fm := by
  unfold buildReport
  exact List.mem_insertionSort UnusedLe

/-- **C3 (counterexample).** A project consisting of the single file
    `v.py` binding the module-level variable `cfg` (line 1) that is used
    nowhere in the project: the variable definition is recorded in the
    file map, no use of `cfg` is recorded anywhere, yet the unused-symbol
    report is empty — where the claim requires an entry for `cfg`. -/
theorem c3_counterexample :
    ((analyzeFiles [] ["proj"]
        [(["proj", "v.py"], some [.assign [.name "cfg" .store 1] .const 1])]).fileMap.map
      (fun p => p.2.definitions)) = [[⟨"variable", "cfg", 1, []⟩]] ∧
    ((analyzeFiles [] ["proj"]
        [(["proj", "v.py"], some [.assign [.name "cfg" .store 1] .const 1])]).fileMap.map
      (fun p => p.2.usedSymbols)) = [[]] ∧
    (analyzeProject [] ["proj"]
        [(["proj", "v.py"], some [.assign [.name "cfg" .store 1] .const 1])]).unusedSymbols
      = [] := by
  exact ⟨by decide, by decide, by decide⟩

/-- **C3 (amended).** An entry appears in the unused-symbol report iff it
    comes from a definition of kind function or class (module-level
    variables are never reported), whose name does not begin with two
    underscores, and whose name never occurs among the *recorded* uses —
    the loads the visitor could not resolve in the scopes of their own
    file; a name whose every occurrence resolves locally (for example a
    function called only inside its defining file, after its definition)
    is still reported unused. -/
theorem c3_amended_unused_characterization (fs : Fs) (root : FPath)
    (files : List (FPath × Option (List PyStmt))) (e : UnusedEntry) :
    e ∈ (analyzeProject fs root files).unusedSymbols ↔
      ∃ p ∈ (analyzeFiles fs root files).fileMap, ∃ d ∈ p.2.definitions,
        (d.type = "function" ∨ d.type = "class") ∧
        d.name ∉ (analyzeFiles fs root files).fileMap.flatMap
          (fun q => q.2.usedSymbols.map (fun u => u.1)) ∧
        startsWithDunder d.name = false ∧
        e = ⟨d.name, d.type, p.1, d.line⟩ := by
  unfold analyzeProject
  rw [mem_report_unused, mem_findUnusedSymbols]

/-- **C10.** No entry of the unused-symbol report has a name beginning
    with two underscores: every definition named `__…` (for example
    `__init__`) is unconditionally excluded from the report. -/
theorem c10_dunder_never_reported_unused (fs : Fs) (root : FPath)
    (files : List (FPath × Option (List PyStmt))) (e : UnusedEntry)
    (he : e ∈ (analyzeProject fs root files).unusedSymbols) :
    startsWithDunder e.symbol = false := by
  unfold analyzeProject at he
  rw [mem_report_unused, mem_findUnusedSymbols] at he
  obtain ⟨p, _, d, _, _, _, hdunder, hmk⟩ := he
  rw [hmk]
  exact hdunder

/-- Witness for C10: the concrete project where `unused_fn` is reported
    unused; its name does not begin with two underscores. -/
theorem c10_witness :
    startsWithDunder (UnusedEntry.mk "unused_fn" "function" "c.py" 1).symbol = false :=
  c10_dunder_never_reported_unused [] ["proj"]
    [(["proj", "c.py"], some [.functionDef "unused_fn" [] [.passStmt] 1])]
    ⟨"unused_fn", "function", "c.py", 1⟩ (by decide)

/-! Section: claim C1 — mutual plain imports and the cycle report. -/

/-- **C1 (divergence).** In the three-file scenario — `a.py` containing
    `import b`, `b.py` containing `import a`, `c.py` defining
    `unused_fn` — with all three files present on disk, `visit_Import`
    records *no* resolved import edge for plain `import` statements
    (it only marks the alias name defined), so every import set is empty
    and the circular-import report is empty, where the claim requires a
    cycle over `{a.py, b.py}`.  (With `from`-imports the same detector
    does report the cycle, confirming the slip is in `visit_Import`.) -/
theorem c1_plain_imports_produce_no_cycle :
    ((analyzeFiles
        [["proj", "a.py"], ["proj", "b.py"], ["proj", "c.py"]] ["proj"]
        [ (["proj", "a.py"], some [.importStmt [⟨"b", none⟩]]),
          (["proj", "b.py"], some [.importStmt [⟨"a", none⟩]]),
          (["proj", "c.py"], some [.functionDef "unused_fn" [] [.passStmt] 1]) ]).fileMap.map
      (fun p => (p.1, p.2.imports)))
      = [("a.py", []), ("b.py", []), ("c.py", [])] ∧
    (analyzeProject
        [["proj", "a.py"], ["proj", "b.py"], ["proj", "c.py"]] ["proj"]
        [ (["proj", "a.py"], some [.importStmt [⟨"b", none⟩]]),
          (["proj", "b.py"], some [.importStmt [⟨"a", none⟩]]),
          (["proj", "c.py"], some [.functionDef "unused_fn" [] [.passStmt] 1]) ]).circularImports
      = [] ∧
    (analyzeProject
        [["proj", "a.py"], ["proj", "b.py"], ["proj", "c.py"]] ["proj"]
        [ (["proj", "a.py"], some [.importFrom (some "b") [⟨"x", none⟩] 0]),
          (["proj", "b.py"], some [.importFrom (some "a") [⟨"y", none⟩] 0]),
          (["proj", "c.py"], some [.functionDef "unused_fn" [] [.passStmt] 1]) ]).circularImports
      = [["a.py", "b.py", "a.py"]] := by
  exact ⟨by decide, by decide, by decide⟩

/-! Section: claim C7 — neighbour iteration order and determinism. -/

/-- **C7 (divergence).** Two import graphs that are equal as *set-valued*
    graphs (same keys in the same order, neighbour lists equal as sets —
    exactly what the Python `dict` of `set`s determines mathematically)
    produce different circular-import reports, because the DFS takes the
    neighbours in whatever order the `set` iterates them; with CPython
    hash randomization that order, and hence the report, can change
    between runs on the same input. -/
theorem c7_cycle_report_depends_on_set_iteration_order :
    ([("a", ["b", "c"]), ("b", ["c"]), ("c", ["b"])] : Graph).map Prod.fst
      = ([("a", ["c", "b"]), ("b", ["c"]), ("c", ["b"])] : Graph).map Prod.fst ∧
    (["a", "b", "c"].map (fun n =>
        (neighborsOf [("a", ["b", "c"]), ("b", ["c"]), ("c", ["b"])] n).toFinset))
      = (["a", "b", "c"].map (fun n =>
        (neighborsOf [("a", ["c", "b"]), ("b", ["c"]), ("c", ["b"])] n).toFinset)) ∧
    detectCircularImports [("a", ["b", "c"]), ("b", ["c"]), ("c", ["b"])]
      = [["b", "c", "b"]] ∧
    detectCircularImports [("a", ["c", "b"]), ("b", ["c"]), ("c", ["b"])]
      = [["c", "b", "c"]] ∧
    detectCircularImports [("a", ["b", "c"]), ("b", ["c"]), ("c", ["b"])]
      ≠ detectCircularImports [("a", ["c", "b"]), ("b", ["c"]), ("c", ["b"])] := by
  exact ⟨by decide, by decide, by decide, by decide, by decide⟩

/-! Section: claim C4 — scope bindings and the undefined-symbol report. -/

/-- Pointwise scope growth: the stack keeps its depth and every level
    keeps (at least) its names.  Every visit step extends scopes this
    way: scope sets only ever grow, and pushes are matched by pops. -/
def ScopeExt (s t : List (List String)) : Prop :=
  List.Forall₂ (fun a b => a ⊆ b) s t

/-- The name is bound in some scope of the stack (the proposition behind
    `_is_defined_in_scope`). -/
def DefinedInScopes (scopes : List (List String)) (n : String) : Prop :=
  ∃ s ∈ scopes, n ∈ s

theorem isDefinedInScope_iff (st : VisitorState) (n : String) :
    isDefinedInScope st n = true ↔ DefinedInScopes st.scopeStack n := by
  unfold isDefinedInScope DefinedInScopes
  simp [List.any_eq_true]

theorem scopeExt_refl : ∀ s, ScopeExt s s := by
  intro s
  induction s with
  | nil => exact List.Forall₂.nil
  | cons a l ih => exact List.Forall₂.cons (fun x hx => hx) ih

theorem scopeExt_trans {s t u : List (List String)} (h1 : ScopeExt s t) (h2 : ScopeExt t u) :
    ScopeExt s u := by
  induction h1 generalizing u with
  | nil => cases h2; exact List.Forall₂.nil
  | cons hab hrest ih =>
    cases h2 with
    | cons hbc hrest2 => exact List.Forall₂.cons (fun x hx => hbc (hab hx)) (ih hrest2)

theorem definedInScopes_mono {s t : List (List String)} {n : String}
    (hext : ScopeExt s t) (h : DefinedInScopes s n) : DefinedInScopes t n := by
  obtain ⟨sc, hsc, hn⟩ := h
  induction hext with
  | nil => exact absurd hsc (List.not_mem_nil _)
  | cons hab hrest ih =>
    rcases List.mem_cons.mp hsc with heq | hmem
    · exact ⟨_, List.mem_cons_self _ _, hab (heq ▸ hn)⟩
    · obtain ⟨x, hx, hnx⟩ := ih hmem
      exact ⟨x, List.mem_cons_of_mem _ hx, hnx⟩


theorem addDefined_scopeExt (st : VisitorState) (n : String) :
    ScopeExt st.scopeStack (addDefined st n).scopeStack := by
  rcases st with ⟨defs, used, imps, scopes, cn⟩
  cases scopes with
  | nil => exact scopeExt_refl []
  | cons s rest =>
    show ScopeExt (s :: rest) (insertIfAbsent n s :: rest)
    refine List.Forall₂.cons ?_ (scopeExt_refl rest)
    unfold insertIfAbsent
    by_cases hn : n ∈ s
    · simp [hn]
    · simp only [if_neg hn]
      exact fun x hx => List.mem_cons_of_mem _ hx

/-- Popping a scope that was pushed before a visit still extends the
    stack below the push. -/
theorem tail_ext_of_cons_ext {a : List String} {l m : List (List String)}
    (h : ScopeExt (a :: l) m) : ScopeExt l m.tail := by
  rcases List.forall₂_cons_left_iff.mp h with ⟨b, u, _, hrest, hu⟩
  rw [hu]
  exact hrest

theorem foldl_scopeExt {α : Type} {f : VisitorState → α → VisitorState}
    (hf : ∀ s a, ScopeExt s.scopeStack (f s a).scopeStack) :
    ∀ (l : List α) (st : VisitorState),
      ScopeExt st.scopeStack (l.foldl f st).scopeStack := by
  intro l
  induction l with
  | nil => intro st; exact scopeExt_refl _
  | cons a rest ih => intro st; exact scopeExt_trans (hf st a) (ih (f st a))

mutual

theorem visitExpr_scopeExt : ∀ (e : PyExpr) (st : VisitorState),
    ScopeExt st.scopeStack (visitExpr st e).scopeStack
  | .const, st => scopeExt_refl _
  | .name id ctx ln, st => by
    cases ctx with
    | load =>
      by_cases h : isDefinedInScope st id
      · simp only [visitExpr, if_pos h]
        exact scopeExt_refl _
      · simp only [visitExpr, if_neg h]
        exact scopeExt_refl _
    | store => exact addDefined_scopeExt st id
  | .call f args, st =>
    scopeExt_trans (visitExpr_scopeExt f st) (visitExprs_scopeExt args (visitExpr st f))

theorem visitExprs_scopeExt : ∀ (es : List PyExpr) (st : VisitorState),
    ScopeExt st.scopeStack (visitExprs st es).scopeStack
  | [], st => scopeExt_refl _
  | e :: es, st =>
    scopeExt_trans (visitExpr_scopeExt e st) (visitExprs_scopeExt es (visitExpr st e))

end


mutual

theorem visitStmt_scopeExt (ctx : VCtx) : ∀ (s : PyStmt) (st : VisitorState),
    ScopeExt st.scopeStack (visitStmt ctx st s).scopeStack
  | .functionDef nm args body lineno, st => by
    show ScopeExt st.scopeStack
      (visitStmts ctx
        { addDefined
            (if st.currentClassName.isSome then st
             else { st with definitions := st.definitions ++ [⟨"function", nm, lineno, args⟩] })
            nm with
          scopeStack := args.foldl (fun s a => insertIfAbsent a s) [] ::
            (addDefined
              (if st.currentClassName.isSome then st
               else { st with definitions := st.definitions ++ [⟨"function", nm, lineno, args⟩] })
              nm).scopeStack } body).scopeStack.tail
    have hpush : ScopeExt
        (args.foldl (fun s a => insertIfAbsent a s) [] ::
          (addDefined
            (if st.currentClassName.isSome then st
             else { st with definitions := st.definitions ++ [⟨"function", nm, lineno, args⟩] })
            nm).scopeStack)
        ((visitStmts ctx
          { addDefined
              (if st.currentClassName.isSome then st
               else { st with definitions := st.definitions ++ [⟨"function", nm, lineno, args⟩] })
              nm with
            scopeStack := args.foldl (fun s a => insertIfAbsent a s) [] ::
              (addDefined
                (if st.currentClassName.isSome then st
                 else { st with definitions := st.definitions ++ [⟨"function", nm, lineno, args⟩] })
                nm).scopeStack } body).scopeStack) :=
      visitStmts_scopeExt ctx body
        { addDefined
            (if st.currentClassName.isSome then st
             else { st with definitions := st.definitions ++ [⟨"function", nm, lineno, args⟩] })
            nm with
          scopeStack := args.foldl (fun s a => insertIfAbsent a s) [] ::
            (addDefined
              (if st.currentClassName.isSome then st
               else { st with definitions := st.definitions ++ [⟨"function", nm, lineno, args⟩] })
              nm).scopeStack }
    refine scopeExt_trans ?_ (tail_ext_of_cons_ext hpush)
    have hst1 : (if st.currentClassName.isSome then st
        else { st with definitions := st.definitions ++ [⟨"function", nm, lineno, args⟩] }).scopeStack
        = st.scopeStack := by
      by_cases hm : st.currentClassName.isSome <;> simp [hm]
    have h := addDefined_scopeExt
      (if st.currentClassName.isSome then st
       else { st with definitions := st.definitions ++ [⟨"function", nm, lineno, args⟩] }) nm
    rwa [hst1] at h
  | .classDef nm body lineno, st => by
    show ScopeExt st.scopeStack
      (visitStmts ctx
        { addDefined
            { st with definitions := st.definitions ++ [⟨"class", nm, lineno,
                body.filterMap (fun s => match s with
                  | .functionDef m _ _ _ => some m
                  | _ => none)⟩] } nm with
          currentClassName := some nm
          scopeStack := [] ::
            (addDefined
              { st with definitions := st.definitions ++ [⟨"class", nm, lineno,
                  body.filterMap (fun s => match s with
                    | .functionDef m _ _ _ => some m
                    | _ => none)⟩] } nm).scopeStack } body).scopeStack.tail
    have hpush : ScopeExt
        ([] ::
          (addDefined
            { st with definitions := st.definitions ++ [⟨"class", nm, lineno,
                body.filterMap (fun s => match s with
                  | .functionDef m _ _ _ => some m
                  | _ => none)⟩] } nm).scopeStack)
        ((visitStmts ctx
          { addDefined
              { st with definitions := st.definitions ++ [⟨"class", nm, lineno,
                  body.filterMap (fun s => match s with
                    | .functionDef m _ _ _ => some m
                    | _ => none)⟩] } nm with
            currentClassName := some nm
            scopeStack := [] ::
              (addDefined
                { st with definitions := st.definitions ++ [⟨"class", nm, lineno,
                    body.filterMap (fun s => match s with
                      | .functionDef m _ _ _ => some m
                      | _ => none)⟩] } nm).scopeStack } body).scopeStack) :=
      visitStmts_scopeExt ctx body
        { addDefined
            { st with definitions := st.definitions ++ [⟨"class", nm, lineno,
                body.filterMap (fun s => match s with
                  | .functionDef m _ _ _ => some m
                  | _ => none)⟩] } nm with
          currentClassName := some nm
          scopeStack := [] ::
            (addDefined
              { st with definitions := st.definitions ++ [⟨"class", nm, lineno,
                  body.filterMap (fun s => match s with
                    | .functionDef m _ _ _ => some m
                    | _ => none)⟩] } nm).scopeStack }
    refine scopeExt_trans ?_ (tail_ext_of_cons_ext hpush)
    exact addDefined_scopeExt
      { st with definitions := st.definitions ++ [⟨"class", nm, lineno,
          body.filterMap (fun s => match s with
            | .functionDef m _ _ _ => some m
            | _ => none)⟩] } nm
  | .assign targets value lineno, st => by
    show ScopeExt st.scopeStack
      ((targets.foldl (fun s t =>
        match t with
        | .name id _ _ =>
          addDefined
            (if s.scopeStack.length = 1 then
              { s with definitions := s.definitions ++ [⟨"variable", id, lineno, []⟩] }
             else s) id
        | other => visitExpr s other) (visitExpr st value)).scopeStack)
    refine scopeExt_trans (visitExpr_scopeExt value st) (foldl_scopeExt ?_ targets _)
    intro s t
    cases t with
    | name id c ln2 =>
      show ScopeExt s.scopeStack (addDefined
        (if s.scopeStack.length = 1 then
          { s with definitions := s.definitions ++ [⟨"variable", id, lineno, []⟩] }
         else s) id).scopeStack
      have hsc : (if s.scopeStack.length = 1 then
          { s with definitions := s.definitions ++ [⟨"variable", id, lineno, []⟩] }
         else s).scopeStack = s.scopeStack := by
        by_cases hl : s.scopeStack.length = 1 <;> simp [hl]
      have h := addDefined_scopeExt
        (if s.scopeStack.length = 1 then
          { s with definitions := s.definitions ++ [⟨"variable", id, lineno, []⟩] }
         else s) id
      rwa [hsc] at h
    | const => exact visitExpr_scopeExt .const s
    | call f args => exact visitExpr_scopeExt (.call f args) s
  | .exprStmt e, st => visitExpr_scopeExt e st
  | .importStmt aliases, st => by
    show ScopeExt st.scopeStack
      ((aliases.foldl (fun s a => addDefined s (a.asname.getD a.aname)) st).scopeStack)
    exact foldl_scopeExt (fun s a => addDefined_scopeExt s (a.asname.getD a.aname)) aliases st
  | .importFrom module aliases level, st => by
    show ScopeExt st.scopeStack
      ((aliases.foldl (fun s a => addDefined s (a.asname.getD a.aname))
        (match resolveImportPath ctx.fs ctx.projectRoot ctx.filePath (module.getD "") level with
         | some p => { st with imports := insertImport p st.imports }
         | none => st)).scopeStack)
    refine scopeExt_trans ?_ (foldl_scopeExt
      (fun s a => addDefined_scopeExt s (a.asname.getD a.aname)) aliases _)
    cases resolveImportPath ctx.fs ctx.projectRoot ctx.filePath (module.getD "") level with
    | none => exact scopeExt_refl _
    | some p => exact scopeExt_refl _
  | .passStmt, st => scopeExt_refl _

theorem visitStmts_scopeExt (ctx : VCtx) : ∀ (ss : List PyStmt) (st : VisitorState),
    ScopeExt st.scopeStack (visitStmts ctx st ss).scopeStack
  | [], st => scopeExt_refl _
  | s :: ss, st =>
    scopeExt_trans (visitStmt_scopeExt ctx s st) (visitStmts_scopeExt ctx ss (visitStmt ctx st s))

end

theorem definedInScopes_cons {l : List (List String)} {a : List String} {n : String}
    (h : DefinedInScopes l n) : DefinedInScopes (a :: l) n := by
  obtain ⟨s, hs, hn⟩ := h
  exact ⟨s, List.mem_cons_of_mem _ hs, hn⟩

theorem foldl_addDefined_usedSymbols (aliases : List PyAlias) (st : VisitorState) :
    (aliases.foldl (fun s a => addDefined s (a.asname.getD a.aname)) st).usedSymbols
      = st.usedSymbols := by
  induction aliases generalizing st with
  | nil => rfl
  | cons a as ih => simp [List.foldl_cons, ih, addDefined_usedSymbols]

theorem foldl_used_filter {α : Type} {f : VisitorState → α → VisitorState} {n : String}
    (hext : ∀ s a, ScopeExt s.scopeStack (f s a).scopeStack)
    (hf : ∀ s a, DefinedInScopes s.scopeStack n →
      (f s a).usedSymbols.filter (fun u => u.1 = n) = s.usedSymbols.filter (fun u => u.1 = n)) :
    ∀ (l : List α) (st : VisitorState), DefinedInScopes st.scopeStack n →
      (l.foldl f st).usedSymbols.filter (fun u => u.1 = n)
        = st.usedSymbols.filter (fun u => u.1 = n) := by
  intro l
  induction l with
  | nil => intro st _; rfl
  | cons a rest ih =>
    intro st hd
    rw [List.foldl_cons, ih (f st a) (definedInScopes_mono (hext st a) hd), hf st a hd]

mutual

theorem visitExpr_used_filter : ∀ (e : PyExpr) (st : VisitorState) (n : String),
    DefinedInScopes st.scopeStack n →
    (visitExpr st e).usedSymbols.filter (fun u => u.1 = n)
      = st.usedSymbols.filter (fun u => u.1 = n)
  | .const, st, n, _ => rfl
  | .name id ctx ln, st, n, hd => by
    cases ctx with
    | load =>
      by_cases h : isDefinedInScope st id
      · simp only [visitExpr, if_pos h]
      · simp only [visitExpr, if_neg h]
        have hne : id ≠ n := by
          intro he
          exact h (he ▸ (isDefinedInScope_iff st n).mpr hd)
        simp [List.filter_append, hne]
    | store =>
      show (addDefined st id).usedSymbols.filter (fun u => u.1 = n)
        = st.usedSymbols.filter (fun u => u.1 = n)
      rw [addDefined_usedSymbols]
  | .call f args, st, n, hd => by
    have h1 := visitExpr_used_filter f st n hd
    have h2 := visitExprs_used_filter args (visitExpr st f) n
      (definedInScopes_mono (visitExpr_scopeExt f st) hd)
    show (visitExprs (visitExpr st f) args).usedSymbols.filter (fun u => u.1 = n)
      = st.usedSymbols.filter (fun u => u.1 = n)
    rw [h2, h1]

theorem visitExprs_used_filter : ∀ (es : List PyExpr) (st : VisitorState) (n : String),
    DefinedInScopes st.scopeStack n →
    (visitExprs st es).usedSymbols.filter (fun u => u.1 = n)
      = st.usedSymbols.filter (fun u => u.1 = n)
  | [], st, n, _ => rfl
  | e :: es, st, n, hd => by
    have h1 := visitExpr_used_filter e st n hd
    have h2 := visitExprs_used_filter es (visitExpr st e) n
      (definedInScopes_mono (visitExpr_scopeExt e st) hd)
    show (visitExprs (visitExpr st e) es).usedSymbols.filter (fun u => u.1 = n)
      = st.usedSymbols.filter (fun u => u.1 = n)
    rw [h2, h1]

end

/-- The per-target step of `visit_Assign` extends scopes. -/
theorem assignStep_scopeExt (lineno : Nat) (s : VisitorState) (t : PyExpr) :
    ScopeExt s.scopeStack
      ((match t with
        | .name id _ _ =>
          addDefined
            (if s.scopeStack.length = 1 then
              { s with definitions := s.definitions ++ [⟨"variable", id, lineno, []⟩] }
             else s) id
        | other => visitExpr s other) : VisitorState).scopeStack := by
  cases t with
  | name id c ln2 =>
    have hsc : (if s.scopeStack.length = 1 then
        { s with definitions := s.definitions ++ [⟨"variable", id, lineno, []⟩] }
       else s).scopeStack = s.scopeStack := by
      by_cases hl : s.scopeStack.length = 1 <;> simp [hl]
    have h := addDefined_scopeExt
      (if s.scopeStack.length = 1 then
        { s with definitions := s.definitions ++ [⟨"variable", id, lineno, []⟩] }
       else s) id
    rwa [hsc] at h
  | const => exact visitExpr_scopeExt .const s
  | call f args => exact visitExpr_scopeExt (.call f args) s

/-- The per-target step of `visit_Assign` adds no use of a name already
    in scope. -/
theorem assignStep_used_filter (lineno : Nat) (n : String) (s : VisitorState) (t : PyExpr)
    (hd : DefinedInScopes s.scopeStack n) :
    ((match t with
      | .name id _ _ =>
        addDefined
          (if s.scopeStack.length = 1 then
            { s with definitions := s.definitions ++ [⟨"variable", id, lineno, []⟩] }
           else s) id
      | other => visitExpr s other) : VisitorState).usedSymbols.filter (fun u => u.1 = n)
      = s.usedSymbols.filter (fun u => u.1 = n) := by
  cases t with
  | name id c ln2 =>
    have husd : (if s.scopeStack.length = 1 then
        { s with definitions := s.definitions ++ [⟨"variable", id, lineno, []⟩] }
       else s).usedSymbols = s.usedSymbols := by
      by_cases hl : s.scopeStack.length = 1 <;> simp [hl]
    show (addDefined
        (if s.scopeStack.length = 1 then
          { s with definitions := s.definitions ++ [⟨"variable", id, lineno, []⟩] }
         else s) id).usedSymbols.filter (fun u => u.1 = n)
      = s.usedSymbols.filter (fun u => u.1 = n)
    rw [addDefined_usedSymbols, husd]
  | const => exact visitExpr_used_filter .const s n hd
  | call f args => exact visitExpr_used_filter (.call f args) s n hd

mutual

theorem visitStmt_used_filter (ctx : VCtx) : ∀ (s : PyStmt) (st : VisitorState) (n : String),
    DefinedInScopes st.scopeStack n →
    (visitStmt ctx st s).usedSymbols.filter (fun u => u.1 = n)
      = st.usedSymbols.filter (fun u => u.1 = n)
  | .functionDef nm args body lineno, st, n, hd => by
    show ((visitStmts ctx
        { addDefined
            (if st.currentClassName.isSome then st
             else { st with definitions := st.definitions ++ [⟨"function", nm, lineno, args⟩] })
            nm with
          scopeStack := args.foldl (fun s a => insertIfAbsent a s) [] ::
            (addDefined
              (if st.currentClassName.isSome then st
               else { st with definitions := st.definitions ++ [⟨"function", nm, lineno, args⟩] })
              nm).scopeStack } body).usedSymbols.filter (fun u => u.1 = n))
      = st.usedSymbols.filter (fun u => u.1 = n)
    have hst1sc : (if st.currentClassName.isSome then st
        else { st with definitions := st.definitions ++ [⟨"function", nm, lineno, args⟩] }).scopeStack
        = st.scopeStack := by
      by_cases hm : st.currentClassName.isSome <;> simp [hm]
    have hst1us : (if st.currentClassName.isSome then st
        else { st with definitions := st.definitions ++ [⟨"function", nm, lineno, args⟩] }).usedSymbols
        = st.usedSymbols := by
      by_cases hm : st.currentClassName.isSome <;> simp [hm]
    have hd2 : DefinedInScopes (addDefined
        (if st.currentClassName.isSome then st
         else { st with definitions := st.definitions ++ [⟨"function", nm, lineno, args⟩] })
        nm).scopeStack n :=
      definedInScopes_mono (addDefined_scopeExt _ nm) (by rw [hst1sc]; exact hd)
    have hd3 : DefinedInScopes
        (args.foldl (fun s a => insertIfAbsent a s) [] ::
          (addDefined
            (if st.currentClassName.isSome then st
             else { st with definitions := st.definitions ++ [⟨"function", nm, lineno, args⟩] })
            nm).scopeStack) n := definedInScopes_cons hd2
    rw [visitStmts_used_filter ctx body _ n hd3]
    show (addDefined
        (if st.currentClassName.isSome then st
         else { st with definitions := st.definitions ++ [⟨"function", nm, lineno, args⟩] })
        nm).usedSymbols.filter (fun u => u.1 = n)
      = st.usedSymbols.filter (fun u => u.1 = n)
    rw [addDefined_usedSymbols, hst1us]
  | .classDef nm body lineno, st, n, hd => by
    show ((visitStmts ctx
        { addDefined
            { st with definitions := st.definitions ++ [⟨"class", nm, lineno,
                body.filterMap (fun s => match s with
                  | .functionDef m _ _ _ => some m
                  | _ => none)⟩] } nm with
          currentClassName := some nm
          scopeStack := [] ::
            (addDefined
              { st with definitions := st.definitions ++ [⟨"class", nm, lineno,
                  body.filterMap (fun s => match s with
                    | .functionDef m _ _ _ => some m
                    | _ => none)⟩] } nm).scopeStack } body).usedSymbols.filter (fun u => u.1 = n))
      = st.usedSymbols.filter (fun u => u.1 = n)
    have hd2 : DefinedInScopes (addDefined
        { st with definitions := st.definitions ++ [⟨"class", nm, lineno,
            body.filterMap (fun s => match s with
              | .functionDef m _ _ _ => some m
              | _ => none)⟩] } nm).scopeStack n :=
      definedInScopes_mono (addDefined_scopeExt _ nm) hd
    rw [visitStmts_used_filter ctx body _ n (definedInScopes_cons hd2)]
    show (addDefined
        { st with definitions := st.definitions ++ [⟨"class", nm, lineno,
            body.filterMap (fun s => match s with
              | .functionDef m _ _ _ => some m
              | _ => none)⟩] } nm).usedSymbols.filter (fun u => u.1 = n)
      = st.usedSymbols.filter (fun u => u.1 = n)
    rw [addDefined_usedSymbols]
  | .assign targets value lineno, st, n, hd => by
    show ((targets.foldl (fun s t =>
        match t with
        | .name id _ _ =>
          addDefined
            (if s.scopeStack.length = 1 then
              { s with definitions := s.definitions ++ [⟨"variable", id, lineno, []⟩] }
             else s) id
        | other => visitExpr s other) (visitExpr st value)).usedSymbols.filter (fun u => u.1 = n))
      = st.usedSymbols.filter (fun u => u.1 = n)
    rw [foldl_used_filter (assignStep_scopeExt lineno) (assignStep_used_filter lineno n)
      targets (visitExpr st value)
      (definedInScopes_mono (visitExpr_scopeExt value st) hd)]
    exact visitExpr_used_filter value st n hd
  | .exprStmt e, st, n, hd => visitExpr_used_filter e st n hd
  | .importStmt aliases, st, n, _ => by
    show ((aliases.foldl (fun s a => addDefined s (a.asname.getD a.aname)) st).usedSymbols.filter
      (fun u => u.1 = n)) = st.usedSymbols.filter (fun u => u.1 = n)
    rw [foldl_addDefined_usedSymbols]
  | .importFrom module aliases level, st, n, _ => by
    show ((aliases.foldl (fun s a => addDefined s (a.asname.getD a.aname))
        (match resolveImportPath ctx.fs ctx.projectRoot ctx.filePath (module.getD "") level with
         | some p => { st with imports := insertImport p st.imports }
         | none => st)).usedSymbols.filter (fun u => u.1 = n))
      = st.usedSymbols.filter (fun u => u.1 = n)
    rw [foldl_addDefined_usedSymbols]
    cases resolveImportPath ctx.fs ctx.projectRoot ctx.filePath (module.getD "") level with
    | none => rfl
    | some p => rfl
  | .passStmt, st, n, _ => rfl

theorem visitStmts_used_filter (ctx : VCtx) : ∀ (ss : List PyStmt) (st : VisitorState) (n : String),
    DefinedInScopes st.scopeStack n →
    (visitStmts ctx st ss).usedSymbols.filter (fun u => u.1 = n)
      = st.usedSymbols.filter (fun u => u.1 = n)
  | [], st, n, _ => rfl
  | s :: ss, st, n, hd => by
    show (visitStmts ctx (visitStmt ctx st s) ss).usedSymbols.filter (fun u => u.1 = n)
      = st.usedSymbols.filter (fun u => u.1 = n)
    rw [visitStmts_used_filter ctx ss (visitStmt ctx st s) n
      (definedInScopes_mono (visitStmt_scopeExt ctx s st) hd),
      visitStmt_used_filter ctx s st n hd]

end

theorem mem_insertIfAbsent_self (n : String) (s : List String) :
    n ∈ insertIfAbsent n s := by
  unfold insertIfAbsent
  by_cases h : n ∈ s
  · simpa [h]
  · simp [h]

theorem mem_insertIfAbsent_of_mem {x : String} {s : List String} (n : String) (h : x ∈ s) :
    x ∈ insertIfAbsent n s := by
  unfold insertIfAbsent
  by_cases hn : n ∈ s
  · simpa [hn]
  · simp [hn]
    right
    exact h

theorem mem_foldl_insertIfAbsent {p : String} :
    ∀ (l : List String) (init : List String), p ∈ l ∨ p ∈ init →
      p ∈ l.foldl (fun s a => insertIfAbsent a s) init := by
  intro l
  induction l with
  | nil =>
    intro init h
    rcases h with h | h
    · exact absurd h (List.not_mem_nil p)
    · exact h
  | cons a rest ih =>
    intro init h
    rw [List.foldl_cons]
    rcases h with h | h
    · rcases List.mem_cons.mp h with heq | hmem
      · exact ih _ (Or.inr (heq ▸ mem_insertIfAbsent_self a init))
      · exact ih _ (Or.inl hmem)
    · exact ih _ (Or.inr (mem_insertIfAbsent_of_mem a h))

theorem addDefined_definedInScopes {st : VisitorState} (n : String)
    (h : st.scopeStack ≠ []) : DefinedInScopes (addDefined st n).scopeStack n := by
  rcases st with ⟨defs, used, imps, scopes, cn⟩
  cases scopes with
  | nil => exact absurd rfl h
  | cons s rest =>
    exact ⟨insertIfAbsent n s, List.mem_cons_self _ _, mem_insertIfAbsent_self n s⟩

/-- Membership characterization of `_find_undefined_symbols`. -/
theorem mem_findUndefinedSymbols (fm : FileMap) (e : UndefEntry) :
    e ∈ findUndefinedSymbols fm ↔
      ∃ p ∈ fm, ∃ u ∈ p.2.usedSymbols,
        u.1 ∉ allDefinedSymbols fm ∧ e = ⟨u.1, p.1, u.2⟩ := by
  unfold findUndefinedSymbols
  rw [List.mem_dedup]
  simp only [List.mem_flatMap, List.mem_map, List.mem_filter, decide_eq_true_eq]
  constructor
  · rintro ⟨p, hp, u, ⟨hu, hnd⟩, he⟩
    exact ⟨p, hp, u, hu, hnd, he.symm⟩
  · rintro ⟨p, hp, u, hu, hnd, he⟩
    exact ⟨p, hp, u, ⟨hu, hnd⟩, he.symm⟩

/-- The sort of `_build_final_report` does not change membership. -/
theorem mem_report_undefined (fm : FileMap) (e : UndefEntry) :
    e ∈ (buildReport fm).undefinedSymbols ↔ e ∈ findUndefinedSymbols fm := by
  unfold buildReport
  exact List.mem_insertionSort UndefLe

/-- **C4 (counterexample).** The file `d.py` whose function body reads
    `zqx` on line 2 and only then binds it by assignment on line 3: the
    load occurs earlier in source order than the binding in the same
    scope, and the analyzer reports `zqx` undefined at `d.py:2` — the
    claim says such a reference is never reported. -/
theorem c4_counterexample :
    (analyzeProject [] ["proj"]
        [(["proj", "d.py"], some [.functionDef "f" []
          [.exprStmt (.name "zqx" .load 2),
           .assign [.name "zqx" .store 3] .const 3] 1])]).undefinedSymbols
      = [⟨"zqx", "d.py", 2⟩] := by
  decide

/-- **C4 (amended).** A load-reference is never recorded as a pending
    use — hence never reported undefined — when the name is bound in some
    scope on the visitor stack at the moment the reference is traversed:
    (1) any subtree visited from a state whose stack binds the name adds
    no use of it; (2) function parameters are seeded into the pushed
    scope before the body, so a parameter reference anywhere in the body
    is never recorded; (3) a name bound by an assignment statement is in
    scope for all following statements of the same traversal, which add
    no use of it; and (4) a name recorded in no file as a use never
    appears in the undefined-symbol report.  (A reference *earlier* in
    source order than a function-local binding, however, is recorded and
    reported — see the counterexample.) -/
theorem c4_amended_in_scope_never_undefined :
    (∀ (ctx : VCtx) (stmts : List PyStmt) (st : VisitorState) (n : String),
      DefinedInScopes st.scopeStack n →
      (visitStmts ctx st stmts).usedSymbols.filter (fun u => u.1 = n)
        = st.usedSymbols.filter (fun u => u.1 = n)) ∧
    (∀ (ctx : VCtx) (nm : String) (args : List String) (body : List PyStmt) (lineno : Nat)
      (st : VisitorState) (p : String), p ∈ args →
      (visitStmt ctx st (.functionDef nm args body lineno)).usedSymbols.filter (fun u => u.1 = p)
        = st.usedSymbols.filter (fun u => u.1 = p)) ∧
    (∀ (ctx : VCtx) (st : VisitorState) (n : String) (e : PyExpr) (ln : Nat)
      (rest : List PyStmt), st.scopeStack ≠ [] →
      (visitStmts ctx st (.assign [.name n .store ln] e ln :: rest)).usedSymbols.filter
          (fun u => u.1 = n)
        = (visitStmt ctx st (.assign [.name n .store ln] e ln)).usedSymbols.filter
          (fun u => u.1 = n)) ∧
    (∀ (fm : FileMap) (n : String),
      (∀ p ∈ fm, ∀ u ∈ p.2.usedSymbols, u.1 ≠ n) →
      ∀ e ∈ (buildReport fm).undefinedSymbols, e.symbol ≠ n) := by
  refine ⟨visitStmts_used_filter, ?_, ?_, ?_⟩
  · intro ctx nm args body lineno st p hp
    show ((visitStmts ctx
        { addDefined
            (if st.currentClassName.isSome then st
             else { st with definitions := st.definitions ++ [⟨"function", nm, lineno, args⟩] })
            nm with
          scopeStack := args.foldl (fun s a => insertIfAbsent a s) [] ::
            (addDefined
              (if st.currentClassName.isSome then st
               else { st with definitions := st.definitions ++ [⟨"function", nm, lineno, args⟩] })
              nm).scopeStack } body).usedSymbols.filter (fun u => u.1 = p))
      = st.usedSymbols.filter (fun u => u.1 = p)
    have hin : DefinedInScopes
        (args.foldl (fun s a => insertIfAbsent a s) [] ::
          (addDefined
            (if st.currentClassName.isSome then st
             else { st with definitions := st.definitions ++ [⟨"function", nm, lineno, args⟩] })
            nm).scopeStack) p :=
      ⟨args.foldl (fun s a => insertIfAbsent a s) [], List.mem_cons_self _ _,
        mem_foldl_insertIfAbsent args [] (Or.inl hp)⟩
    rw [visitStmts_used_filter ctx body _ p hin]
    show (addDefined
        (if st.currentClassName.isSome then st
         else { st with definitions := st.definitions ++ [⟨"function", nm, lineno, args⟩] })
        nm).usedSymbols.filter (fun u => u.1 = p)
      = st.usedSymbols.filter (fun u => u.1 = p)
    rw [addDefined_usedSymbols]
    by_cases hm : st.currentClassName.isSome <;> simp [hm]
  · intro ctx st n e ln rest hne
    show (visitStmts ctx (visitStmt ctx st (.assign [.name n .store ln] e ln)) rest).usedSymbols.filter
        (fun u => u.1 = n)
      = (visitStmt ctx st (.assign [.name n .store ln] e ln)).usedSymbols.filter (fun u => u.1 = n)
    apply visitStmts_used_filter
    show DefinedInScopes (addDefined
        (if (visitExpr st e).scopeStack.length = 1 then
          { visitExpr st e with definitions :=
            (visitExpr st e).definitions ++ [⟨"variable", n, ln, []⟩] }
         else visitExpr st e) n).scopeStack n
    apply addDefined_definedInScopes
    have hlen : (visitExpr st e).scopeStack.length = st.scopeStack.length :=
      (List.Forall₂.length_eq (visitExpr_scopeExt e st)).symm
    by_cases hl : (visitExpr st e).scopeStack.length = 1
    · simp only [if_pos hl]
      intro hnil
      rw [hnil] at hl
      simp at hl
    · simp only [if_neg hl]
      intro hnil
      rw [hnil] at hlen
      exact hne (List.length_eq_zero.mp hlen.symm)
  · intro fm n hnone e he
    rw [mem_report_undefined, mem_findUndefinedSymbols] at he
    obtain ⟨p, hp, u, hu, _, hmk⟩ := he
    rw [hmk]
    exact hnone p hp u hu

/-- Witness for C4 (amended): each conjunct applied at a concrete
    instance — a body reading the parameter `p`, a function named `g`
    with parameter `p`, an assignment to `v` followed by a read of `v`,
    and a file map recording no uses at all. -/
theorem c4_amended_witness :
    ((visitStmts ⟨[], ["proj"], ["proj", "w.py"]⟩
        { initVisitorState with scopeStack := [["p"]] }
        [.exprStmt (.name "p" .load 2)]).usedSymbols.filter (fun u => u.1 = "p")
      = ({ initVisitorState with scopeStack := [["p"]] } : VisitorState).usedSymbols.filter
          (fun u => u.1 = "p")) ∧
    ((visitStmt ⟨[], ["proj"], ["proj", "w.py"]⟩ initVisitorState
        (.functionDef "g" ["p"] [.exprStmt (.name "p" .load 2)] 1)).usedSymbols.filter
          (fun u => u.1 = "p")
      = initVisitorState.usedSymbols.filter (fun u => u.1 = "p")) ∧
    ((visitStmts ⟨[], ["proj"], ["proj", "w.py"]⟩ initVisitorState
        [.assign [.name "v" .store 1] .const 1,
         .exprStmt (.name "v" .load 2)]).usedSymbols.filter (fun u => u.1 = "v")
      = (visitStmt ⟨[], ["proj"], ["proj", "w.py"]⟩ initVisitorState
          (.assign [.name "v" .store 1] .const 1)).usedSymbols.filter (fun u => u.1 = "v")) ∧
    (∀ e ∈ (buildReport [("w.py", ⟨[], [], []⟩)]).undefinedSymbols, e.symbol ≠ "zqx") := by
  refine ⟨?_, ?_, ?_, ?_⟩
  · exact c4_amended_in_scope_never_undefined.1 ⟨[], ["proj"], ["proj", "w.py"]⟩
      [.exprStmt (.name "p" .load 2)] { initVisitorState with scopeStack := [["p"]] } "p"
      ⟨["p"], by decide, by decide⟩
  · exact c4_amended_in_scope_never_undefined.2.1 ⟨[], ["proj"], ["proj", "w.py"]⟩
      "g" ["p"] [.exprStmt (.name "p" .load 2)] 1 initVisitorState "p" (by decide)
  · exact c4_amended_in_scope_never_undefined.2.2.1 ⟨[], ["proj"], ["proj", "w.py"]⟩
      initVisitorState "v" .const 1 [.exprStmt (.name "v" .load 2)] (by decide)
  · exact c4_amended_in_scope_never_undefined.2.2.2 [("w.py", ⟨[], [], []⟩)] "zqx"
      (by decide)

/-! Section: claim C6 — cycle canonicalization. -/

/-- Permutations share a sorted key (`tuple(sorted(c))`). -/
theorem sortKey_congr {l₁ l₂ : List String} (h : l₁.Perm l₂) : sortKey l₁ = sortKey l₂ := by
  unfold sortKey pySorted
  refine List.eq_of_perm_of_sorted ?_ (List.sorted_insertionSort StrLeP l₁)
    (List.sorted_insertionSort StrLeP l₂)
  exact ((List.perm_insertionSort StrLeP l₁).trans h).trans
    (List.perm_insertionSort StrLeP l₂).symm

/-- The closing repeat of a recorded cycle does not change its file set. -/
theorem toFinset_cycle (v : String) (s : List String) :
    (v :: s ++ [v]).toFinset = (v :: s).toFinset := by
  ext x
  simp [List.toFinset_append, List.mem_toFinset]
  tauto

/-- `sliceFrom` of a member is a suffix that starts with the member. -/
theorem sliceFrom_suffix {n : String} :
    ∀ {p : List String}, n ∈ p → ∃ t, sliceFrom n p = n :: t ∧ (n :: t) <:+ p := by
  intro p
  induction p with
  | nil => intro h; exact absurd h (List.not_mem_nil n)
  | cons x xs ih =>
    intro h
    by_cases hx : x = n
    · subst hx
      exact ⟨xs, by simp [sliceFrom], List.suffix_refl _⟩
    · have hmem : n ∈ xs := by
        rcases List.mem_cons.mp h with he | hm
        · exact absurd he.symm hx
        · exact hm
      obtain ⟨t, hs, hsuf⟩ := ih hmem
      exact ⟨t, by simp [sliceFrom, hx, hs], hsuf.trans (List.suffix_cons x xs)⟩

/-- Unique decomposition at an element of a duplicate-free list. -/
theorem nodup_decomp_unique {v : String} :
    ∀ {A B C D : List String}, (A ++ v :: B).Nodup → A ++ v :: B = C ++ v :: D →
      A = C ∧ B = D := by
  intro A
  induction A with
  | nil =>
    intro B C D hnd heq
    cases C with
    | nil => simpa using heq
    | cons c C' =>
      simp only [List.nil_append, List.cons_append, List.cons.injEq] at heq
      exfalso
      have hnd' : (v :: B).Nodup := by simpa using hnd
      have hv : v ∈ B := by rw [heq.2]; simp
      exact (List.nodup_cons.mp hnd').1 hv
  | cons a A' ih =>
    intro B C D hnd heq
    cases C with
    | nil =>
      simp only [List.cons_append, List.nil_append, List.cons.injEq] at heq
      exfalso
      have hnd' : (a :: (A' ++ v :: B)).Nodup := by simpa using hnd
      have hva : a ∉ A' ++ v :: B := (List.nodup_cons.mp hnd').1
      rw [heq.1] at hva
      exact hva (by simp)
    | cons c C' =>
      simp only [List.cons_append, List.cons.injEq] at heq
      have hnd' : (A' ++ v :: B).Nodup := by
        have := (List.nodup_cons.mp (by simpa using hnd : (a :: (A' ++ v :: B)).Nodup)).2
        exact this
      have hres := ih hnd' heq.2
      exact ⟨by rw [heq.1, hres.1], hres.2⟩


/-- A recorded cycle, relative to the current search state: a
    duplicate-free sequence closed by its first element `v`, whose
    members are all finished once `v` is finished, and, while `v` is on
    the recursion path, all unfinished members lie at or after `v` on the
    path.  This captures that the closing element of a recorded cycle is
    the member that entered the path first and leaves it last. -/
def CycleOk (st : DfsState) (c : List String) : Prop :=
  ∃ v s, c = v :: s ++ [v] ∧ (v :: s).Nodup ∧
    (v ∈ st.visited → ∀ x ∈ v :: s, x ∈ st.visited) ∧
    (v ∈ st.path → ∃ pre rest, st.path = pre ++ v :: rest ∧
      ∀ x ∈ v :: s, x ∈ st.visited ∨ x ∈ v :: rest) ∧
    (v ∈ st.path ∨ v ∈ st.visited)

/-- The invariant of the cycle search: the recursion path is
    duplicate-free, `visiting` is exactly the set of path members (and
    duplicate-free itself), finished nodes are never on the path, every
    recorded cycle satisfies `CycleOk`, and — the property at stake — no
    two recorded cycles share their file set. -/
def DfsInv (st : DfsState) : Prop :=
  st.path.Nodup ∧
  st.visiting.Nodup ∧
  (∀ x, x ∈ st.visiting ↔ x ∈ st.path) ∧
  (∀ x, x ∈ st.visited → x ∉ st.path) ∧
  (∀ c ∈ st.cycles, CycleOk st c) ∧
  st.cycles.Pairwise (fun c c' => c.toFinset ≠ c'.toFinset)

theorem push_inv {st : DfsState} {node : String} (hInv : DfsInv st)
    (hp : node ∉ st.path) (hv : node ∉ st.visited) :
    DfsInv { st with
      visiting := if node ∈ st.visiting then st.visiting else node :: st.visiting
      path := st.path ++ [node] } := by
  obtain ⟨h1, h2, h3, h4, h5, h6⟩ := hInv
  have hnvg : node ∉ st.visiting := fun h => hp ((h3 node).mp h)
  rw [if_neg hnvg]
  refine ⟨?_, ?_, ?_, ?_, ?_, h6⟩
  · simp [List.nodup_append, h1, hp]
  · exact List.nodup_cons.mpr ⟨hnvg, h2⟩
  · intro x
    simp only [List.mem_cons, List.mem_append, List.mem_singleton, List.not_mem_nil,
      or_false]
    rw [← h3 x]
    tauto
  · intro x hx
    simp only [List.mem_append, List.mem_singleton]
    rintro (hxp | he)
    · exact h4 x hx hxp
    · exact hv (he ▸ hx)
  · intro c hc
    obtain ⟨v, s, hshape, hnd, ha, hb, hcc⟩ := h5 c hc
    refine ⟨v, s, hshape, hnd, ha, ?_, ?_⟩
    · intro hvp
      simp only [List.mem_append, List.mem_singleton] at hvp
      rcases hvp with hvp | hve
      · obtain ⟨pre, rest, hdec, hcov⟩ := hb hvp
        refine ⟨pre, rest ++ [node], ?_, ?_⟩
        · rw [hdec]
          simp
        · intro x hx
          rcases hcov x hx with hvis | hr
          · exact Or.inl hvis
          · refine Or.inr ?_
            rcases List.mem_cons.mp hr with he | hm
            · simp [he]
            · simp [List.mem_cons_of_mem, hm]
      · exfalso
        rcases hcc with hcp | hcv
        · exact hp (hve ▸ hcp)
        · exact hv (hve ▸ hcv)
    · rcases hcc with hcp | hcv
      · exact Or.inl (by simp [hcp])
      · exact Or.inr hcv

theorem pop_inv {st2 : DfsState} {node : String} {q : List String}
    (hInv : DfsInv st2) (hpath : st2.path = q ++ [node]) (hnq : node ∉ q) :
    DfsInv { st2 with
      path := st2.path.dropLast
      visiting := st2.visiting.erase node
      visited := if node ∈ st2.visited then st2.visited else node :: st2.visited } := by
  obtain ⟨h1, h2, h3, h4, h5, h6⟩ := hInv
  have hnodepath : node ∈ st2.path := by rw [hpath]; simp
  have hnodevis : node ∉ st2.visited := fun h => h4 node h hnodepath
  have hdrop : st2.path.dropLast = q := by rw [hpath]; exact List.dropLast_concat
  have hq1 : q.Nodup := (List.nodup_append.mp (hpath ▸ h1)).1
  have hnodnode : (q ++ node :: ([] : List String)).Nodup := by
    have h7 : (q ++ [node]).Nodup := hpath ▸ h1
    simpa using h7
  rw [if_neg hnodevis]
  refine ⟨?_, ?_, ?_, ?_, ?_, h6⟩
  · show (st2.path.dropLast).Nodup
    rw [hdrop]; exact hq1
  · exact h2.erase node
  · intro x
    show x ∈ st2.visiting.erase node ↔ x ∈ st2.path.dropLast
    rw [hdrop, h2.mem_erase_iff, h3 x, hpath]
    simp only [List.mem_append, List.mem_singleton]
    constructor
    · rintro ⟨hne, hx | he⟩
      · exact hx
      · exact absurd he hne
    · intro hx
      exact ⟨fun he => hnq (he ▸ hx), Or.inl hx⟩
  · intro x hx
    show x ∉ st2.path.dropLast
    rw [hdrop]
    rcases List.mem_cons.mp hx with he | hv
    · exact he ▸ hnq
    · intro hxq
      exact h4 x hv (by rw [hpath]; simp [hxq])
  · intro c hc
    obtain ⟨v, s, hshape, hnd, ha, hb, hcc⟩ := h5 c hc
    refine ⟨v, s, hshape, hnd, ?_, ?_, ?_⟩
    · show v ∈ node :: st2.visited → ∀ x ∈ v :: s, x ∈ node :: st2.visited
      intro hvv x hx
      rcases List.mem_cons.mp hvv with hveq | hvold
      · -- the popped node closes this cycle: its decomposition suffix is
        -- empty, so all members are already finished or are the node
        obtain ⟨pre, rest, hdec, hcov⟩ := hb (hveq ▸ hnodepath)
        rw [hpath, hveq] at hdec
        have heq9 : q ++ node :: ([] : List String) = pre ++ node :: rest := by
          simpa using hdec
        have hu := nodup_decomp_unique (v := node) hnodnode heq9
        have hrest : rest = [] := hu.2.symm
        rcases hcov x hx with hvis | hr
        · exact List.mem_cons_of_mem _ hvis
        · rw [hveq, hrest] at hr
          simp only [List.mem_cons, List.not_mem_nil, or_false] at hr
          simp [hr]
      · exact List.mem_cons_of_mem _ (ha hvold x hx)
    · show v ∈ st2.path.dropLast → ∃ pre rest, st2.path.dropLast = pre ++ v :: rest ∧
        ∀ x ∈ v :: s, x ∈ node :: st2.visited ∨ x ∈ v :: rest
      rw [hdrop]
      intro hvq
      have hvne : v ≠ node := fun he => hnq (he ▸ hvq)
      have hvpath : v ∈ st2.path := by rw [hpath]; simp [hvq]
      obtain ⟨pre, rest, hdec, hcov⟩ := hb hvpath
      rw [hpath] at hdec
      rcases List.eq_nil_or_concat rest with hre | ⟨rest', a, hra⟩
      · exfalso
        rw [hre] at hdec
        have hinj := List.append_inj' hdec rfl
        have h8 : node = v := by simpa using hinj.2
        exact hvne h8.symm
      · rw [List.concat_eq_append] at hra
        rw [hra] at hdec
        have hdec2 : q ++ [node] = (pre ++ v :: rest') ++ [a] := by
          rw [hdec]; simp
        have hinj := List.append_inj' hdec2 rfl
        have hanode : a = node := by simpa using hinj.2.symm
        refine ⟨pre, rest', hinj.1, ?_⟩
        intro x hx
        rcases hcov x hx with hvis | hr
        · exact Or.inl (List.mem_cons_of_mem _ hvis)
        · rcases List.mem_cons.mp hr with he | hm
          · exact Or.inr (by simp [he])
          · rw [hra] at hm
            rcases List.mem_append.mp hm with hm1 | hm2
            · exact Or.inr (List.mem_cons_of_mem _ hm1)
            · simp only [List.mem_singleton] at hm2
              exact Or.inl (by rw [hm2, hanode]; exact List.mem_cons_self _ _)
    · show v ∈ st2.path.dropLast ∨ v ∈ node :: st2.visited
      rw [hdrop]
      rcases hcc with hcp | hcv
      · rw [hpath] at hcp
        rcases List.mem_append.mp hcp with hq2 | he
        · exact Or.inl hq2
        · simp only [List.mem_singleton] at he
          exact Or.inr (by rw [he]; exact List.mem_cons_self _ _)
      · exact Or.inr (List.mem_cons_of_mem _ hcv)

theorem nodup_middle_not_mem {v : String} {A B : List String}
    (h : (A ++ v :: B).Nodup) : v ∉ A ∧ v ∉ B := by
  have h2 : (v :: (A ++ B)).Nodup := List.nodup_middle.mp h
  have h3 := (List.nodup_cons.mp h2).1
  constructor
  · intro hv; exact h3 (List.mem_append.mpr (Or.inl hv))
  · intro hv; exact h3 (List.mem_append.mpr (Or.inr hv))

theorem addCycle_inv {st : DfsState} {n : String} (hInv : DfsInv st) (hn : n ∈ st.path) :
    DfsInv (addCycleIfNew st (sliceFrom n st.path ++ [n])) := by
  obtain ⟨t, hslice, hsuffix⟩ := sliceFrom_suffix hn
  obtain ⟨pre, hpre⟩ := id hsuffix
  obtain ⟨h1, h2, h3, h4, h5, h6⟩ := hInv
  unfold addCycleIfNew
  by_cases hkey : sortKey (sliceFrom n st.path ++ [n]) ∈ st.cycles.map sortKey
  · rw [if_pos hkey]
    exact ⟨h1, h2, h3, h4, h5, h6⟩
  · rw [if_neg hkey]
    have hndnt : (n :: t).Nodup := hsuffix.sublist.nodup h1
    have hsub : ∀ x ∈ n :: t, x ∈ st.path := by
      intro x hx
      rw [← hpre]
      exact List.mem_append.mpr (Or.inr hx)
    refine ⟨h1, h2, h3, h4, ?_, ?_⟩
    · intro c hc
      rcases List.mem_append.mp hc with hold | hnew
      · exact h5 c hold
      · simp only [List.mem_singleton] at hnew
        refine ⟨n, t, by rw [hnew, hslice], hndnt, ?_, ?_, Or.inl hn⟩
        · intro hvis
          exact absurd hn (h4 n hvis)
        · intro _
          refine ⟨pre, t, by rw [← hpre], ?_⟩
          intro x hx
          exact Or.inr hx
    · rw [List.pairwise_append]
      refine ⟨h6, List.pairwise_singleton _ _, ?_⟩
      intro c' hc' cnew hcnew
      simp only [List.mem_singleton] at hcnew
      subst hcnew
      intro hfeq
      -- a previously recorded cycle with the same file set: derive a
      -- contradiction with the sorted-key guard
      obtain ⟨v, s, hshape, hnd', ha', hb', hcc'⟩ := h5 c' hc'
      rw [hshape] at hfeq
      rw [hslice] at hfeq
      have hS : (v :: s).toFinset = (n :: t).toFinset := by
        have e1 : (v :: s ++ [v]).toFinset = (v :: s).toFinset := toFinset_cycle v s
        have e2 : (n :: t ++ [n]).toFinset = (n :: t).toFinset := toFinset_cycle n t
        rw [← e1, ← e2]
        exact hfeq
      have hmemiff : ∀ x, x ∈ v :: s ↔ x ∈ n :: t := by
        intro x
        rw [← List.mem_toFinset, hS, List.mem_toFinset]
      have hvpath : v ∈ st.path := by
        rcases hcc' with hp | hv
        · exact hp
        · exfalso
          have hvnt : v ∈ n :: t := (hmemiff v).mp (List.mem_cons_self v s)
          exact h4 v hv (hsub v hvnt)
      obtain ⟨pre', rest', hdec', hcov'⟩ := hb' hvpath
      have hnvs : n ∈ v :: s := (hmemiff n).mpr (List.mem_cons_self n t)
      have hncase := hcov' n hnvs
      have hnnotvis : n ∉ st.visited := fun h => h4 n h hn
      have hnrest : n ∈ v :: rest' := by
        rcases hncase with h | h
        · exact absurd h hnnotvis
        · exact h
      have hveqn : v = n := by
        rcases List.mem_cons.mp hnrest with he | hm
        · exact he.symm
        · -- n strictly after v on the path; then v would have to recur
          -- inside the slice, contradicting path nodup
          exfalso
          obtain ⟨s₁, s₂, hs12⟩ := List.append_of_mem hm
          have hdec2 : st.path = (pre' ++ v :: s₁) ++ n :: s₂ := by
            rw [hdec', hs12]
            simp
          have heq9 : (pre' ++ v :: s₁) ++ n :: s₂ = pre ++ n :: t := by
            rw [← hdec2, ← hpre]
          have hu := nodup_decomp_unique (v := n) (hdec2 ▸ h1) heq9
          have hts2 : t = s₂ := hu.2.symm
          have hvnt : v ∈ n :: t := (hmemiff v).mp (List.mem_cons_self v s)
          rcases List.mem_cons.mp hvnt with hve | hvt
          · -- v = n contradicts n ∈ rest' and nodup of the decomposition
            have := nodup_middle_not_mem (hdec' ▸ h1)
            exact this.2 (hve ▸ hs12 ▸ List.mem_append.mpr (Or.inr (List.mem_cons_self n s₂)))
          · have hvs2 : v ∈ s₂ := hts2 ▸ hvt
            have := nodup_middle_not_mem (hdec' ▸ h1)
            exact this.2 (hs12 ▸ List.mem_append.mpr (Or.inr (List.mem_cons_of_mem n hvs2)))
      have hperm : (v :: s).Perm (n :: t) :=
        List.perm_of_nodup_nodup_toFinset_eq hnd' hndnt hS
      have hpermc : c'.Perm (sliceFrom n st.path ++ [n]) := by
        rw [hshape, hslice]
        have : (v :: s ++ [v]).Perm (n :: t ++ [n]) := by
          rw [hveqn]
          exact (hveqn ▸ hperm).append (List.Perm.refl [n])
        exact this
      have hkey2 : sortKey (sliceFrom n st.path ++ [n]) ∈ st.cycles.map sortKey := by
        rw [← sortKey_congr hpermc]
        exact List.mem_map.mpr ⟨c', hc', rfl⟩
      exact hkey hkey2

theorem addCycleIfNew_path (st : DfsState) (c : List String) :
    (addCycleIfNew st c).path = st.path := by
  unfold addCycleIfNew; split <;> rfl

theorem addCycleIfNew_visiting (st : DfsState) (c : List String) :
    (addCycleIfNew st c).visiting = st.visiting := by
  unfold addCycleIfNew; split <;> rfl

theorem addCycleIfNew_visited (st : DfsState) (c : List String) :
    (addCycleIfNew st c).visited = st.visited := by
  unfold addCycleIfNew; split <;> rfl

theorem foldl_preserve {α β : Type} (f : β → α → β) (P : β → Prop)
    (hstep : ∀ b a, P b → P (f b a)) :
    ∀ (l : List α) (b : β), P b → P (l.foldl f b) := by
  intro l
  induction l with
  | nil => intro b hb; exact hb
  | cons a l ihl =>
    intro b hb
    exact ihl (f b a) (hstep b a hb)

theorem dfs_finish {st : DfsState} {node : String} {st2 : DfsState}
    (hI2 : DfsInv st2) (hp2 : st2.path = st.path ++ [node])
    (hv2 : st2.visiting = node :: st.visiting)
    (hw2 : ∀ x ∈ st.visited, x ∈ st2.visited)
    (hnp : node ∉ st.path) :
    DfsInv { st2 with
        path := st2.path.dropLast
        visiting := st2.visiting.erase node
        visited := if node ∈ st2.visited then st2.visited else node :: st2.visited } ∧
    ({ st2 with
        path := st2.path.dropLast
        visiting := st2.visiting.erase node
        visited := if node ∈ st2.visited then st2.visited else node :: st2.visited }
      : DfsState).path = st.path ∧
    ({ st2 with
        path := st2.path.dropLast
        visiting := st2.visiting.erase node
        visited := if node ∈ st2.visited then st2.visited else node :: st2.visited }
      : DfsState).visiting = st.visiting ∧
    ∀ x ∈ st.visited, x ∈
      ({ st2 with
        path := st2.path.dropLast
        visiting := st2.visiting.erase node
        visited := if node ∈ st2.visited then st2.visited else node :: st2.visited }
      : DfsState).visited := by
  refine ⟨pop_inv hI2 hp2 hnp, ?_, ?_, ?_⟩
  · show st2.path.dropLast = st.path
    rw [hp2]; exact List.dropLast_concat
  · show st2.visiting.erase node = st.visiting
    rw [hv2]; exact List.erase_cons_head node st.visiting
  · intro x hx
    show x ∈ (if node ∈ st2.visited then st2.visited else node :: st2.visited)
    split
    · exact hw2 x hx
    · exact List.mem_cons_of_mem _ (hw2 x hx)

theorem dfsVisit_inv (g : Graph) :
    ∀ (fuel : Nat) (node : String) (st : DfsState),
      DfsInv st → node ∉ st.path → node ∉ st.visited →
      DfsInv (dfsVisit g fuel node st) ∧
      (dfsVisit g fuel node st).path = st.path ∧
      (dfsVisit g fuel node st).visiting = st.visiting ∧
      ∀ x ∈ st.visited, x ∈ (dfsVisit g fuel node st).visited := by
  intro fuel
  induction fuel with
  | zero =>
    intro node st hInv hp hv
    exact ⟨hInv, rfl, rfl, fun x hx => hx⟩
  | succ fuel ih =>
    intro node st hInv hp hv
    have hnvg : node ∉ st.visiting := fun h => hp ((hInv.2.2.1 node).mp h)
    have hpush := push_inv hInv hp hv
    rw [if_neg hnvg] at hpush
    have hstep : ∀ (s : DfsState) (n : String),
        (DfsInv s ∧ s.path = st.path ++ [node] ∧ s.visiting = node :: st.visiting ∧
          (∀ x ∈ st.visited, x ∈ s.visited)) →
        (DfsInv (if n ∈ s.visiting then
            (if n ∈ s.path then addCycleIfNew s (sliceFrom n s.path ++ [n]) else s)
          else if n ∈ s.visited then s else dfsVisit g fuel n s) ∧
         (if n ∈ s.visiting then
            (if n ∈ s.path then addCycleIfNew s (sliceFrom n s.path ++ [n]) else s)
          else if n ∈ s.visited then s else dfsVisit g fuel n s).path
            = st.path ++ [node] ∧
         (if n ∈ s.visiting then
            (if n ∈ s.path then addCycleIfNew s (sliceFrom n s.path ++ [n]) else s)
          else if n ∈ s.visited then s else dfsVisit g fuel n s).visiting
            = node :: st.visiting ∧
         (∀ x ∈ st.visited, x ∈ (if n ∈ s.visiting then
            (if n ∈ s.path then addCycleIfNew s (sliceFrom n s.path ++ [n]) else s)
          else if n ∈ s.visited then s else dfsVisit g fuel n s).visited)) := by
      rintro s n ⟨hI, hsp, hsv, hsw⟩
      by_cases hnv : n ∈ s.visiting
      · by_cases hnp : n ∈ s.path
        · rw [if_pos hnv, if_pos hnp]
          exact ⟨addCycle_inv hI hnp,
            by rw [addCycleIfNew_path]; exact hsp,
            by rw [addCycleIfNew_visiting]; exact hsv,
            fun x hx => by rw [addCycleIfNew_visited]; exact hsw x hx⟩
        · rw [if_pos hnv, if_neg hnp]
          exact ⟨hI, hsp, hsv, hsw⟩
      · rw [if_neg hnv]
        by_cases hnw : n ∈ s.visited
        · rw [if_pos hnw]
          exact ⟨hI, hsp, hsv, hsw⟩
        · rw [if_neg hnw]
          have hnp : n ∉ s.path := fun h => hnv ((hI.2.2.1 n).mpr h)
          obtain ⟨hI2, hp2, hv2, hw2⟩ := ih n s hI hnp hnw
          exact ⟨hI2, hp2.trans hsp, hv2.trans hsv, fun x hx => hw2 x (hsw x hx)⟩
    have hfold := foldl_preserve
      (fun s n =>
        if n ∈ s.visiting then
          if n ∈ s.path then addCycleIfNew s (sliceFrom n s.path ++ [n]) else s
        else if n ∈ s.visited then s
        else dfsVisit g fuel n s)
      (fun s => DfsInv s ∧ s.path = st.path ++ [node] ∧
        s.visiting = node :: st.visiting ∧ (∀ x ∈ st.visited, x ∈ s.visited))
      hstep (neighborsOf g node)
      { st with visiting := node :: st.visiting, path := st.path ++ [node] }
      ⟨hpush, rfl, rfl, fun x hx => hx⟩
    show DfsInv (dfsVisit g (fuel + 1) node st) ∧
      (dfsVisit g (fuel + 1) node st).path = st.path ∧
      (dfsVisit g (fuel + 1) node st).visiting = st.visiting ∧
      ∀ x ∈ st.visited, x ∈ (dfsVisit g (fuel + 1) node st).visited
    simp only [dfsVisit]
    rw [if_neg hnvg]
    exact dfs_finish hfold.1 hfold.2.1 hfold.2.2.1 hfold.2.2.2 hp

theorem detect_fold_inv (g : Graph) :
    ∀ (ps : List (String × List String)) (st : DfsState),
      DfsInv st → st.path = [] → st.visiting = [] →
      DfsInv (ps.foldl (fun st p =>
          if p.1 ∈ st.visited then st else dfsVisit g (dfsFuel g) p.1 st) st) ∧
      (ps.foldl (fun st p =>
          if p.1 ∈ st.visited then st else dfsVisit g (dfsFuel g) p.1 st) st).path = [] ∧
      (ps.foldl (fun st p =>
          if p.1 ∈ st.visited then st else dfsVisit g (dfsFuel g) p.1 st) st).visiting
        = [] := by
  intro ps
  induction ps with
  | nil =>
    intro st h1 h2 h3
    exact ⟨h1, h2, h3⟩
  | cons p ps ihp =>
    intro st h1 h2 h3
    by_cases hv : p.1 ∈ st.visited
    · simp only [List.foldl_cons]
      rw [if_pos hv]
      exact ihp st h1 h2 h3
    · simp only [List.foldl_cons]
      rw [if_neg hv]
      have hnp : p.1 ∉ st.path := by rw [h2]; exact List.not_mem_nil _
      obtain ⟨hI, hp, hvis, hw⟩ := dfsVisit_inv g (dfsFuel g) p.1 st h1 hnp hv
      exact ihp _ hI (hp.trans h2) (hvis.trans h3)

/-- **C6.** The cycle detector never reports two cycles over the same set
    of files: the recorded cycle list is pairwise distinct in its member
    file sets (the set of a cycle, `List.toFinset`, already ignores the
    closing repeated element, rotation and direction).  This holds for the
    detector on every import graph, and hence for the circular-import list
    of every analyzed project. -/
theorem c6_no_two_cycles_over_same_file_set :
    (∀ g : Graph, (detectCircularImports g).Pairwise
      (fun c c₂ => c.toFinset ≠ c₂.toFinset)) ∧
    ∀ (fs : Fs) (root : FPath) (files : List (FPath × Option (List PyStmt))),
      (analyzeProject fs root files).circularImports.Pairwise
        (fun c c₂ => c.toFinset ≠ c₂.toFinset) := by
  have hg : ∀ g : Graph, (detectCircularImports g).Pairwise
      (fun c c₂ => c.toFinset ≠ c₂.toFinset) := by
    intro g
    have hinit : DfsInv (⟨[], [], [], []⟩ : DfsState) := by
      refine ⟨List.nodup_nil, List.nodup_nil, ?_, ?_, ?_, List.Pairwise.nil⟩
      · intro x; simp
      · intro x hx; simp at hx
      · intro c hc; simp at hc
    have h := detect_fold_inv g g ⟨[], [], [], []⟩ hinit rfl rfl
    exact h.1.2.2.2.2.2
  exact ⟨hg, fun fs root files => hg _⟩
